import Mathlib

/-!
Verification of the SDK lifecycle core of `dfctl-go` (`src/main.go`).

Strings are modelled as `List Char` (one model character per Go byte; all
paths and version strings handled by the program are ASCII, where Go's
byte-wise string order and the character-wise order below agree).  The
filesystem underneath `afero.Fs` is modelled as an explicit state value,
network and archive decoding as oracles passed to the operations that use
them.  Symbolic-link traversal inside paths is not modelled: path lookup is
purely lexical, which matches every execution the theorems below are about
(the only symlink the program creates, `root/current`, is never used as an
intermediate path component by the code under verification).
-/

namespace DfctlGo

/-- Model of a Go string: a list of characters. -/
abbrev GoStr := List Char

/-- A path segment (the text between separators). -/
abbrev Seg := List Char

/-- Prepend a character to the first field of a split result. -/
def consField (c : Char) : List Seg → List Seg
  | [] => [[c]]
  | s :: ss => (c :: s) :: ss

/-- Translation of Go `strings.Split(s, sep)` for a one-character separator:
splits around every occurrence of the separator; the empty string splits to
one empty field. -/
def splitSep (sep : Char) : GoStr → List Seg
  | [] => [[]]
  | c :: cs =>
    if c = sep then [] :: splitSep sep cs else consField c (splitSep sep cs)

/-- Translation of Go `strings.Join(elems, sep)` for a one-character
separator. -/
def joinSep (sep : Char) : List Seg → GoStr
  | [] => []
  | [s] => s
  | s :: t :: rest => s ++ sep :: joinSep sep (t :: rest)

/-- Whether a path begins with the separator, as in Go `path.IsAbs`. -/
def isAbs (p : GoStr) : Bool :=
  match p with
  | [] => false
  | c :: _ => c == '/'

/-- Core of Go `path.Clean` (and `filepath.Clean` on a slash-separated
platform): processes the split segments left to right keeping an output
stack, skipping empty and `.` segments and resolving `..` against the
stack (a `..` at the root of a rooted path is dropped). -/
def cleanAux (rooted : Bool) : List Seg → List Seg → List Seg
  | out, [] => out.reverse
  | out, s :: rest =>
    if s = [] then cleanAux rooted out rest
    else if s = ['.'] then cleanAux rooted out rest
    else if s = ['.', '.'] then
      match out with
      | [] => if rooted then cleanAux rooted [] rest else cleanAux rooted [['.', '.']] rest
      | t :: out2 =>
        if t = ['.', '.'] then cleanAux rooted (s :: t :: out2) rest
        else cleanAux rooted out2 rest
    else cleanAux rooted (s :: out) rest

/-- Translation of Go `path.Clean` / unix `filepath.Clean`. -/
def goCleanStr (p : GoStr) : GoStr :=
  if p = [] then ['.']
  else
    let segs := cleanAux (isAbs p) [] (splitSep '/' p)
    if isAbs p then '/' :: joinSep '/' segs
    else if segs = [] then ['.'] else joinSep '/' segs

/-- Translation of the two-argument Go `filepath.Join(a, b)` (identical to
`path.Join(a, b)` on unix): empty elements are skipped and the
slash-joined remainder is cleaned. -/
def goJoin2 (a b : GoStr) : GoStr :=
  if a = [] then (if b = [] then [] else goCleanStr b)
  else goCleanStr (a ++ '/' :: b)

/-- The canonical segment list a path string denotes, used to key the
filesystem model: the cleaned split of the path. -/
def resolve (p : GoStr) : List Seg :=
  cleanAux (isAbs p) [] (splitSep '/' p)

/-- Translation of Go `path.Base`: strip trailing separators, then keep
everything after the last separator. -/
def goPathBase (p : GoStr) : GoStr :=
  if p = [] then ['.']
  else
    let q := (p.reverse.dropWhile (fun c => c == '/')).reverse
    if q = [] then ['/']
    else
      let name := (q.reverse.takeWhile (fun c => !(c == '/'))).reverse
      if name = [] then ['/'] else name

/-- A segment that survives cleaning unchanged: nonempty, not a dot
segment, and containing no separator. -/
def plainSeg (s : Seg) : Bool :=
  decide (s ≠ []) && decide (s ≠ ['.']) && decide (s ≠ ['.', '.']) && decide ('/' ∉ s)

/-- Byte-wise lexicographic order on model strings, as Go `string <`
(used by `sort` on directory entry names). -/
def strLe : GoStr → GoStr → Bool
  | [], _ => true
  | _ :: _, [] => false
  | a :: as, b :: bs => if a < b then true else if b < a then false else strLe as bs

/-- All prefix lists of a segment list, shortest first (the set of
ancestor keys `MkdirAll` touches). -/
def initsOf : List Seg → List (List Seg)
  | [] => [[]]
  | a :: l => [] :: (initsOf l).map (fun q => a :: q)

/-! ## Version parsing

`ParseVersion` in `src/main.go` delegates to `semver.NewVersion` and
`(*semver.Version).String` from `github.com/Masterminds/semver v1.5.0`
(pinned in `go.mod`).  That library is an external dependency, modelled
here from its pinned sources: `NewVersion` matches the anchored pattern
`v?(\d+)(\.\d+)?(\.\d+)?(-([0-9A-Za-z-]+(\.[0-9A-Za-z-]+)*))?` followed by
an optional `+metadata` part of the same shape, with absent minor/patch
components defaulting to `0`; `String` renders `major.minor.patch` plus
the optional `-pre` and `+metadata` parts and, per its own documentation,
never carries the leading `v` of its input (that is kept only by
`Original`, which `src/main.go` does not call). -/

/-- Character class `[0-9]`. -/
def isDigitCh (c : Char) : Bool := decide ('0' ≤ c) && decide (c ≤ '9')

/-- Character class `[0-9A-Za-z-]` of semver prerelease/metadata
identifiers. -/
def isIdentCh (c : Char) : Bool :=
  isDigitCh c || (decide ('a' ≤ c) && decide (c ≤ 'z'))
    || (decide ('A' ≤ c) && decide (c ≤ 'Z')) || decide (c = '-')

/-- Split a string into its maximal leading run of digits and the rest. -/
def takeDigits : GoStr → GoStr × GoStr
  | [] => ([], [])
  | c :: rest =>
    if isDigitCh c then
      let (d, r) := takeDigits rest
      (c :: d, r)
    else ([], c :: rest)

/-- Decimal value of a digit run, as `strconv.ParseInt` base 10 (machine
overflow of int64 is not modelled; the versions in play are tiny). -/
def digitsToNat (ds : GoStr) : Nat :=
  ds.foldl (fun n c => n * 10 + (c.toNat - 48)) 0

/-- Whether a string matches `[0-9A-Za-z-]+(\.[0-9A-Za-z-]+)*`. -/
def identSeqOk (s : GoStr) : Bool :=
  (splitSep '.' s).all (fun p => decide (p ≠ []) && p.all isIdentCh)

/-- A parsed semantic version, as the fields of `semver.Version` that
`String` renders. -/
structure SemVer where
  major : Nat
  minor : Nat
  patch : Nat
  pre : GoStr
  meta : GoStr
deriving DecidableEq

/-- Parse the `(\d+)(\.\d+)?(\.\d+)?` core, returning the three numbers
(missing components default to 0) and the unconsumed rest. -/
def parseMMP (s : GoStr) : Option (Nat × Nat × Nat × GoStr) :=
  let (d1, r1) := takeDigits s
  if d1 = [] then none
  else
    match r1 with
    | '.' :: t =>
      let (d2, r2) := takeDigits t
      if d2 = [] then none
      else
        match r2 with
        | '.' :: u =>
          let (d3, r3) := takeDigits u
          if d3 = [] then none
          else some (digitsToNat d1, digitsToNat d2, digitsToNat d3, r3)
        | _ => some (digitsToNat d1, digitsToNat d2, 0, r2)
    | _ => some (digitsToNat d1, 0, 0, r1)

/-- Strip the optional single leading `v` of the semver pattern. -/
def stripV (s : GoStr) : GoStr :=
  match s with
  | 'v' :: r => r
  | _ => s

/-- The part of `semver.NewVersion` after the optional leading `v`:
numeric core, optional `-` prerelease (which cannot contain `+`),
optional `+` metadata, nothing else. -/
def newSemVerCore (s1 : GoStr) : Option SemVer :=
  match parseMMP s1 with
  | none => none
  | some (ma, mi, pa, rest) =>
    let pr : Option GoStr × GoStr :=
      match rest with
      | '-' :: t =>
        (some (t.takeWhile (fun c => !(c == '+'))), t.dropWhile (fun c => !(c == '+')))
      | _ => (none, rest)
    let preOk : Bool := match pr.1 with
      | none => true
      | some p => identSeqOk p
    match pr.2 with
    | [] => if preOk then some ⟨ma, mi, pa, (pr.1).getD [], []⟩ else none
    | '+' :: m =>
      if preOk && identSeqOk m then some ⟨ma, mi, pa, (pr.1).getD [], m⟩ else none
    | _ => none

/-- Model of `semver.NewVersion` from `Masterminds/semver v1.5.0` (see the
section comment above). -/
def newSemVer (s : GoStr) : Option SemVer :=
  newSemVerCore (stripV s)

/-- The decimal character of a digit value, as `fmt` renders `%d`
digit-by-digit. -/
def digitChar (d : Nat) : Char :=
  match d with
  | 0 => '0'
  | 1 => '1'
  | 2 => '2'
  | 3 => '3'
  | 4 => '4'
  | 5 => '5'
  | 6 => '6'
  | 7 => '7'
  | 8 => '8'
  | _ => '9'

/-- Decimal rendering of a natural number with explicit fuel (the fuel
`n + 1` always suffices since the argument strictly shrinks). -/
def natToCharsAux : Nat → Nat → GoStr
  | 0, _ => []
  | fuel + 1, n =>
    if n < 10 then [digitChar n]
    else natToCharsAux fuel (n / 10) ++ [digitChar (n % 10)]

/-- Decimal rendering of a natural number, as Go `%d`. -/
def natToChars (n : Nat) : GoStr := natToCharsAux (n + 1) n

/-- Model of `(*semver.Version).String` from `Masterminds/semver v1.5.0`:
`major.minor.patch` plus optional `-pre` and `+metadata`; never a leading
`v`. -/
def semverString (v : SemVer) : GoStr :=
  natToChars v.major ++ '.' :: natToChars v.minor ++ '.' :: natToChars v.patch
    ++ (if v.pre = [] then [] else '-' :: v.pre)
    ++ (if v.meta = [] then [] else '+' :: v.meta)

/-- The `Version` string type of `src/main.go` line 196. -/
abbrev Version := GoStr

/-- Translation of `ParseVersion` (`src/main.go` lines 149-155): parse via
the semver library and keep the canonical rendering as the `Version`. -/
def ParseVersion (s : GoStr) : Option Version :=
  match newSemVer s with
  | none => none
  | some sv => some (semverString sv)

/-- Translation of `Version.Number` (`src/main.go` lines 198-200):
`strings.TrimPrefix(string(v), "v")`. -/
def versionNumber (v : Version) : GoStr :=
  match v with
  | 'v' :: rest => rest
  | _ => v

/-- Translation of `Version.String` (`src/main.go` lines 202-204). -/
def versionString (v : Version) : GoStr := v

/-- Translation of `formatGoArchiveArtifactName` (`src/main.go` lines
267-269).  The helper `system.RuntimeInfo.Format` lives in the external
`dfctl-kit` dependency; per the spec it substitutes `%s` with the given
version text and `[os]`/`[arch]` with the host platform, so the artifact
name is `go<version>.<os>-<arch>.tar.gz` built from the version text the
caller passes (which in `dlArchive` is `version.String()`). -/
def formatGoArchiveArtifactName (os arch : GoStr) (version : GoStr) : GoStr :=
  "go".data ++ version ++ ".".data ++ os ++ "-".data ++ arch ++ ".tar.gz".data

/-! ## Filesystem model

The `afero.Fs` the executor works against, as explicit state: the sets of
existing directories and regular files (with contents, as byte lists) and
of symbolic links (with their raw target strings), all keyed by resolved
segment lists.  Lookup is lexical (see the header comment). -/

/-- Filesystem state: directories, regular files with contents, symbolic
links with raw targets. -/
structure FState where
  dirs : List (List Seg)
  files : List (List Seg × List Nat)
  links : List (List Seg × GoStr)
deriving DecidableEq

/-- Whether a directory exists at the key (`afero.DirExists`; its error
channel fires only on stat failures the model does not produce). -/
def hasDir (fs : FState) (k : List Seg) : Bool := decide (k ∈ fs.dirs)

/-- Whether a regular file exists at the key. -/
def hasFile (fs : FState) (k : List Seg) : Bool := decide (k ∈ fs.files.map Prod.fst)

/-- Whether a symbolic link exists at the key. -/
def hasLink (fs : FState) (k : List Seg) : Bool := decide (k ∈ fs.links.map Prod.fst)

/-- Add a directory key if it is not already present. -/
def insertDir (ds : List (List Seg)) (k : List Seg) : List (List Seg) :=
  if k ∈ ds then ds else k :: ds

/-- `MkdirAll`: create the directory and every ancestor; fails when a
regular file or link occupies any of those keys (permission bits are not
modelled — no claim mentions them). -/
def mkdirAll (fs : FState) (k : List Seg) : Option FState :=
  if (initsOf k).any (fun q => hasFile fs q || hasLink fs q) then none
  else some { fs with dirs := (initsOf k).foldl insertDir fs.dirs }

/-- `OpenFile(p, O_CREATE|O_TRUNC|O_WRONLY, …)` followed by writing the
whole content: fails when the key holds a directory or link or when the
parent directory does not exist; otherwise creates or truncates the
file. -/
def openWrite (fs : FState) (k : List Seg) (c : List Nat) : Option FState :=
  if hasDir fs k || hasLink fs k then none
  else if hasDir fs k.dropLast = false then none
  else some { fs with files := (k, c) :: fs.files.filter (fun q => decide (q.1 ≠ k)) }

/-- `os.Remove`: deletes a link, a file, or an empty directory; any other
case (including "does not exist") leaves the state unchanged — the caller
in `Use` discards the error anyway. -/
def removePath (fs : FState) (k : List Seg) : FState :=
  if hasLink fs k then
    { fs with links := fs.links.filter (fun q => decide (q.1 ≠ k)) }
  else if hasFile fs k then
    { fs with files := fs.files.filter (fun q => decide (q.1 ≠ k)) }
  else if hasDir fs k && !(fs.dirs.any (fun q => decide (q.dropLast = k ∧ q ≠ k))) then
    { fs with dirs := fs.dirs.filter (fun q => decide (q ≠ k)) }
  else fs

/-- `SymlinkIfPossible(target, newname)` on the OS filesystem
(`os.Symlink`): fails if anything already exists at the new name,
otherwise records the link with its raw target string. -/
def symlinkIfPossible (fs : FState) (newKey : List Seg) (target : GoStr) : Option FState :=
  if hasDir fs newKey || hasFile fs newKey || hasLink fs newKey then none
  else some { fs with links := (newKey, target) :: fs.links }

/-- `ReadlinkIfPossible`: the raw stored target of the link at the key. -/
def readLink (fs : FState) (k : List Seg) : Option GoStr :=
  match fs.links.find? (fun q => decide (q.1 = k)) with
  | some q => some q.2
  | none => none

/-- One entry of a directory read: the entry name and the `Lstat`
directory bit (a symlink is never a directory under `Lstat`). -/
structure GoFileInfo where
  name : Seg
  isDir : Bool
deriving DecidableEq

/-- The name under `k` that `q` denotes, when `q` is an immediate child
key of `k`. -/
def childOf (k q : List Seg) : Option Seg :=
  if q.take k.length = k then
    match q.drop k.length with
    | [n] => some n
    | _ => none
  else none

/-- Names of the immediate children of a directory key, drawn from all
three entry kinds. -/
def childNames (fs : FState) (k : List Seg) : List Seg :=
  fs.dirs.filterMap (childOf k)
    ++ (fs.files.map Prod.fst).filterMap (childOf k)
    ++ (fs.links.map Prod.fst).filterMap (childOf k)

/-- Order on directory entries used by `afero.ReadDir`: ascending by
name. -/
def fiLe (a b : GoFileInfo) : Prop := strLe a.name b.name = true

instance : DecidableRel fiLe := fun a b =>
  inferInstanceAs (Decidable (strLe a.name b.name = true))

/-- `afero.ReadDir`: fails when the key is not a readable directory;
otherwise returns the entries sorted by name (the afero implementation
sorts before returning). -/
def readDir (fs : FState) (k : List Seg) : Option (List GoFileInfo) :=
  if hasDir fs k then
    some (List.insertionSort fiLe
      ((childNames fs k).map (fun n => ⟨n, hasDir fs (k ++ [n])⟩)))
  else none

/-! ## Archive model

`unTarGzip` reads the buffer through `gzip.NewReader` and `tar.Reader`.
The buffer is modelled by what that decoding yields: either the gzip
layer fails to open, or a list of tar entries followed by an optional
mid-stream tar error. -/

/-- One tar entry: its name, whether its header denotes a directory, and
its content bytes (modes are not modelled — no claim mentions them). -/
structure TarHeader where
  name : GoStr
  isDir : Bool
  content : List Nat
deriving DecidableEq

/-- The `Renamer` function type (`src/main.go` line 341). -/
abbrev Renamer := GoStr → GoStr

/-- Translation of `unarchiveRenamer` (`src/main.go` lines 343-350):
split on the separator, drop the first segment, rejoin. -/
def unarchiveRenamer : Renamer :=
  fun p => joinSep '/' ((splitSep '/' p).drop 1)

/-- What decoding the downloaded buffer yields. -/
inductive GzBuf where
  | notGzip
  | gz (entries : List TarHeader) (corrupt : Bool)

/-- Outcome of extraction.  `panicked` models the crash on line 301 of
`src/main.go`: `gr, _ := gzip.NewReader(buf)` discards the open error, so
on an invalid gzip stream `gr` is nil and the first `tr.Next()`
dereferences it. -/
inductive ExtractOut where
  | ok (fs : FState)
  | ioError (fs : FState)
  | panicked
deriving DecidableEq

/-- The entry loop of `unTarGzip` (`src/main.go` lines 304-337): for each
header, rename, join under the target, then `MkdirAll` for directories or
create-truncate-copy for files; the first I/O error aborts; a tar error
after the listed entries surfaces after they were all processed. -/
def untarLoop (target : GoStr) (renamer : Option Renamer) :
    List TarHeader → Bool → FState → ExtractOut
  | [], corrupt, fs => if corrupt then .ioError fs else .ok fs
  | h :: hs, corrupt, fs =>
    let filename := match renamer with
      | some r => r h.name
      | none => h.name
    let k := resolve (goJoin2 target filename)
    if h.isDir then
      match mkdirAll fs k with
      | none => .ioError fs
      | some fs1 => untarLoop target renamer hs corrupt fs1
    else
      match openWrite fs k h.content with
      | none => .ioError fs
      | some fs1 => untarLoop target renamer hs corrupt fs1

/-- Translation of `unTarGzip` (`src/main.go` lines 300-339). -/
def unTarGzip (buf : GzBuf) (target : GoStr) (renamer : Option Renamer)
    (fs : FState) : ExtractOut :=
  match buf with
  | .notGzip => .panicked
  | .gz es corrupt => untarLoop target renamer es corrupt fs

/-- An archive entry described relative to the wrapper directory: its
path segments below the wrapper, whether it is a directory, and its
content bytes. -/
structure RelEntry where
  path : List Seg
  isDir : Bool
  content : List Nat
deriving DecidableEq

/-- The tar entry name of a relative entry under wrapper segment `w`:
the slash-join of `w` and the path, with the trailing slash tar gives
directory entries.  The wrapper directory itself is the entry with an
empty relative path. -/
def mkName (w : Seg) (e : RelEntry) : GoStr :=
  joinSep '/' (w :: e.path) ++ (if e.isDir then ['/'] else [])

/-- The tar header of a relative entry under wrapper segment `w`. -/
def mkHeader (w : Seg) (e : RelEntry) : TarHeader :=
  ⟨mkName w e, e.isDir, e.content⟩

/-- Well-formedness checker for an entry stream, threading the set of
directory paths (`seen`) and file paths (`fseen`) already emitted: every
segment is plain, every entry's parent is the target itself or an
already-emitted directory, directories never collide with files, and
file paths are fresh. -/
def archiveOkB : List (List Seg) → List (List Seg) → List RelEntry → Bool
  | _, _, [] => true
  | seen, fseen, e :: rest =>
    e.path.all plainSeg
    && (decide (e.path.dropLast = []) || decide (e.path.dropLast ∈ seen))
    && (if e.isDir then
          decide (e.path ∉ fseen)
          && archiveOkB (if e.path = [] then seen else e.path :: seen) fseen rest
        else
          decide (e.path ≠ [])
          && decide (e.path ∉ seen)
          && decide (e.path ∉ fseen)
          && archiveOkB seen (e.path :: fseen) rest)

/-! ## Executor operations -/

/-- The executor of `src/main.go`: its install root and whether its
`afero.Fs` is the OS filesystem (the type assertion `e.Fs.(*afero.OsFs)`
in `Use` and `current`). -/
structure Executor where
  installPath : GoStr
  isOsFs : Bool

/-- What the single GET of `download` encounters on the wire. -/
inductive HttpOutcome where
  | reqError
  | netError
  | response (status : Nat) (delivered : List Nat) (readErr : Bool)
deriving DecidableEq

/-- Buffer contents and error flag after `download` returns. -/
structure DlResult where
  buf : List Nat
  err : Bool
deriving DecidableEq

/-- Translation of `download` (`src/main.go` lines 285-298): request and
transport failures are returned; otherwise the response body is copied
into the buffer and the copy error, if any, returned.  The response
status code is never inspected. -/
def download (o : HttpOutcome) : DlResult :=
  match o with
  | .reqError => ⟨[], true⟩
  | .netError => ⟨[], true⟩
  | .response _status delivered readErr => ⟨delivered, readErr⟩

/-- Error kinds `Use` can return. -/
inductive UseErr where
  | onlyOsFsSupported
  | versionNotInstalled
  | symlinkFailed
deriving DecidableEq

/-- Result of `Use`: the filesystem afterwards and the returned error. -/
structure UseOut where
  fs : FState
  err : Option UseErr
deriving DecidableEq

/-- Translation of `Use` (`src/main.go` lines 176-194): require the OS
filesystem, require `root/<version>` to exist as a directory (a
`DirExists` error is folded into `ErrVersionNotInstalled` exactly as the
source does), remove any `root/current` entry ignoring the outcome, then
link `root/current` to the version directory. -/
def Use (e : Executor) (fs : FState) (v : Version) : UseOut :=
  let versionPath := goJoin2 e.installPath (versionString v)
  let currentPath := goJoin2 e.installPath ("current".data)
  if e.isOsFs = false then ⟨fs, some .onlyOsFsSupported⟩
  else if hasDir fs (resolve versionPath) = false then ⟨fs, some .versionNotInstalled⟩
  else
    let fs1 := removePath fs (resolve currentPath)
    match symlinkIfPossible fs1 (resolve currentPath) versionPath with
    | some fs2 => ⟨fs2, none⟩
    | none => ⟨fs1, some .symlinkFailed⟩

instance {ε α : Type} [DecidableEq ε] [DecidableEq α] : DecidableEq (Except ε α) :=
  fun a b =>
    match a, b with
    | .error e1, .error e2 =>
      if h : e1 = e2 then isTrue (by rw [h]) else isFalse (by intro hh; cases hh; exact h rfl)
    | .error _, .ok _ => isFalse (by intro hh; cases hh)
    | .ok _, .error _ => isFalse (by intro hh; cases hh)
    | .ok v1, .ok v2 =>
      if h : v1 = v2 then isTrue (by rw [h]) else isFalse (by intro hh; cases hh; exact h rfl)

/-- Error kinds `current` can return. -/
inductive CurrentErr where
  | onlyOsFsSupported
  | noCurrentVersion
  | invalidVersion
deriving DecidableEq

/-- Translation of `current` (`src/main.go` lines 231-249): read the
`root/current` link, take the base path segment of its target, and
re-parse it as a version. -/
def current (e : Executor) (fs : FState) : Except CurrentErr Version :=
  if e.isOsFs = false then .error .onlyOsFsSupported
  else
    match readLink fs (resolve (goJoin2 e.installPath ("current".data))) with
    | none => .error .noCurrentVersion
    | some link =>
      match ParseVersion (goPathBase link) with
      | none => .error .invalidVersion
      | some v => .ok v

/-- Translation of `list` (`src/main.go` lines 206-218): read the install
root and keep the name of every entry whose `Lstat` says directory. -/
def list (e : Executor) (fs : FState) : Option (List Version) :=
  match readDir fs (resolve e.installPath) with
  | none => none
  | some fis => some ((fis.filter (fun fi => fi.isDir)).map (fun fi => fi.name))

/-- Error kinds `Install` can return (the `dlArchive` wrapper of the
download error included). -/
inductive InstallErr where
  | downloadFailed
  | mkdirFailed
  | extractFailed
deriving DecidableEq

/-- Result of `Install`: either a normal return with the filesystem and
the returned error, or the extraction panic propagating. -/
inductive InstallOut where
  | ret (fs : FState) (err : Option InstallErr)
  | panicked
deriving DecidableEq

/-- Translation of `Install` (`src/main.go` lines 157-174) composed with
`dlArchive` (lines 271-283): download first (any download error is
wrapped and returned before the filesystem is touched), then `MkdirAll`
the per-version directory, then extract.  `decode` is the gzip/tar
decoding oracle applied to the downloaded bytes. -/
def Install (e : Executor) (fs : FState) (v : Version) (net : HttpOutcome)
    (decode : List Nat → GzBuf) : InstallOut :=
  let installPath := goJoin2 e.installPath (versionString v)
  let dl := download net
  if dl.err then .ret fs (some .downloadFailed)
  else
    match mkdirAll fs (resolve installPath) with
    | none => .ret fs (some .mkdirFailed)
    | some fs1 =>
      match unTarGzip (decode dl.buf) installPath (some unarchiveRenamer) fs1 with
      | .ok fs2 => .ret fs2 none
      | .ioError fs2 => .ret fs2 (some .extractFailed)
      | .panicked => .panicked

/-! ## String and path lemmas -/

theorem consField_of_cons (c : Char) (s : Seg) (ss : List Seg) :
    consField c (s :: ss) = (c :: s) :: ss := rfl

theorem splitSep_ne_nil (sep : Char) (s : GoStr) : splitSep sep s ≠ [] := by
  cases s with
  | nil => simp [splitSep]
  | cons c cs =>
    simp only [splitSep]
    by_cases hc : c = sep
    · simp [hc]
    · simp only [if_neg hc]
      cases h : splitSep sep cs <;> simp [consField]

theorem splitSep_append (sep : Char) (x y : GoStr) :
    splitSep sep (x ++ sep :: y) = splitSep sep x ++ splitSep sep y := by
  induction x with
  | nil =>
    simp [splitSep]
  | cons c cs ih =>
    rw [List.cons_append]
    simp only [splitSep, ih]
    by_cases hc : c = sep
    · simp [hc]
    · simp only [if_neg hc]
      cases h : splitSep sep cs with
      | nil => exact absurd h (splitSep_ne_nil sep cs)
      | cons a l => simp [consField]

theorem splitSep_no_sep (sep : Char) (s : GoStr) (h : sep ∉ s) :
    splitSep sep s = [s] := by
  induction s with
  | nil => simp [splitSep]
  | cons c cs ih =>
    simp only [List.mem_cons, not_or] at h
    have hc : ¬ c = sep := fun hh => h.1 hh.symm
    simp [splitSep, if_neg hc, ih h.2, consField]

theorem mem_splitSep_not_sep (sep : Char) (s : GoStr) :
    ∀ t ∈ splitSep sep s, sep ∉ t := by
  induction s with
  | nil => simp [splitSep]
  | cons c cs ih =>
    simp only [splitSep]
    by_cases hc : c = sep
    · simp only [hc, if_pos rfl]
      intro t ht
      rcases List.mem_cons.mp ht with h1 | h1
      · simp [h1]
      · exact ih t h1
    · simp only [if_neg hc]
      cases h : splitSep sep cs with
      | nil => exact absurd h (splitSep_ne_nil sep cs)
      | cons a l =>
        have ha : sep ∉ a := ih a (by rw [h]; exact List.mem_cons_self a l)
        have hl : ∀ t ∈ l, sep ∉ t :=
          fun t ht => ih t (by rw [h]; exact List.mem_cons_of_mem a ht)
        simp only [consField]
        intro t ht
        rcases List.mem_cons.mp ht with h1 | h1
        · subst h1
          intro hmem
          rcases List.mem_cons.mp hmem with h2 | h2
          · exact hc h2.symm
          · exact ha h2
        · exact hl t h1

theorem joinSep_cons_cons (sep : Char) (a : Seg) (l : List Seg) (hl : l ≠ []) :
    joinSep sep (a :: l) = a ++ sep :: joinSep sep l := by
  cases l with
  | nil => exact absurd rfl hl
  | cons b m => rfl

theorem splitSep_joinSep (sep : Char) (ss : List Seg) (hne : ss ≠ [])
    (h : ∀ t ∈ ss, sep ∉ t) : splitSep sep (joinSep sep ss) = ss := by
  induction ss with
  | nil => exact absurd rfl hne
  | cons a l ih =>
    cases l with
    | nil =>
      simp only [joinSep]
      exact splitSep_no_sep sep a (h a (List.mem_cons_self a []))
    | cons b m =>
      rw [joinSep_cons_cons sep a (b :: m) (by simp), splitSep_append]
      rw [splitSep_no_sep sep a (h a (List.mem_cons_self a (b :: m)))]
      rw [ih (by simp) (fun t ht => h t (List.mem_cons_of_mem a ht))]
      simp

theorem joinSep_snoc (sep : Char) (qs : List Seg) (v : Seg) :
    joinSep sep (qs ++ [v]) = if qs = [] then v else joinSep sep qs ++ sep :: v := by
  induction qs with
  | nil => simp [joinSep]
  | cons a l ih =>
    rw [List.cons_append, joinSep_cons_cons sep a (l ++ [v]) (by simp), ih]
    cases l with
    | nil => simp [joinSep]
    | cons b m =>
      rw [joinSep_cons_cons sep a (b :: m) (by simp)]
      simp

theorem cleanAux_plain (rooted : Bool) (segs : List Seg) (out : List Seg)
    (h : ∀ t ∈ segs, t = [] ∨ (t ≠ ['.'] ∧ t ≠ ['.', '.'])) :
    cleanAux rooted out segs = out.reverse ++ segs.filter (fun t => decide (t ≠ [])) := by
  induction segs generalizing out with
  | nil => simp [cleanAux]
  | cons s rest ih =>
    have hs := h s (List.mem_cons_self s rest)
    have hrest : ∀ t ∈ rest, t = [] ∨ (t ≠ ['.'] ∧ t ≠ ['.', '.']) :=
      fun t ht => h t (List.mem_cons_of_mem s ht)
    by_cases h1 : s = []
    · subst h1
      simp only [cleanAux, if_pos rfl]
      rw [ih out hrest]
      simp
    · rcases hs with h0 | ⟨h2, h3⟩
      · exact absurd h0 h1
      · simp only [cleanAux, if_neg h1, if_neg h2, if_neg h3]
        rw [ih (s :: out) hrest]
        simp [h1]

theorem plainSeg_ne_nil {s : Seg} (h : plainSeg s = true) : s ≠ [] := by
  simp only [plainSeg, Bool.and_eq_true, decide_eq_true_eq] at h
  exact h.1.1.1

theorem plainSeg_not_dot {s : Seg} (h : plainSeg s = true) :
    s ≠ ['.'] ∧ s ≠ ['.', '.'] := by
  simp only [plainSeg, Bool.and_eq_true, decide_eq_true_eq] at h
  exact ⟨h.1.1.2, h.1.2⟩

theorem plainSeg_no_sep {s : Seg} (h : plainSeg s = true) : '/' ∉ s := by
  simp only [plainSeg, Bool.and_eq_true, decide_eq_true_eq] at h
  exact h.2

/-- A path whose split starts with an empty field and which is nonempty
starts with the separator. -/
theorem isAbs_of_split {D : GoStr} {ds : List Seg} (hD : D ≠ [])
    (hsplit : splitSep '/' D = [] :: ds) : isAbs D = true := by
  cases D with
  | nil => exact absurd rfl hD
  | cons c cs =>
    by_cases hc : c = '/'
    · simp [isAbs, hc]
    · exfalso
      simp only [splitSep, if_neg hc] at hsplit
      cases h : splitSep '/' cs with
      | nil => exact splitSep_ne_nil '/' cs h
      | cons a l =>
        rw [h] at hsplit
        simp only [consField] at hsplit
        exact (List.cons_ne_nil c a) (List.cons.inj hsplit).1

/-- Normal form of a two-element `filepath.Join` whose first element is
absolute with plain segments `ds` and whose second element splits into
empty-or-plain fields. -/
theorem goJoin2_abs_plain (D : GoStr) (ds : List Seg) (f : GoStr)
    (hD : D ≠ []) (hsplit : splitSep '/' D = [] :: ds)
    (hds : ∀ s ∈ ds, plainSeg s = true)
    (hf : ∀ s ∈ splitSep '/' f, s = [] ∨ plainSeg s = true) :
    goJoin2 D f
      = '/' :: joinSep '/' (ds ++ (splitSep '/' f).filter (fun s => decide (s ≠ []))) := by
  have habs : isAbs D = true := isAbs_of_split hD hsplit
  have hDj : goJoin2 D f = goCleanStr (D ++ '/' :: f) := by
    simp [goJoin2, hD]
  have habs2 : isAbs (D ++ '/' :: f) = true := by
    cases D with
    | nil => exact absurd rfl hD
    | cons c cs => simpa [isAbs] using habs
  have hsplit2 : splitSep '/' (D ++ '/' :: f) = ([] :: ds) ++ splitSep '/' f := by
    rw [splitSep_append, hsplit]
  have hplainOr : ∀ t ∈ ([] :: ds) ++ splitSep '/' f,
      t = [] ∨ (t ≠ ['.'] ∧ t ≠ ['.', '.']) := by
    intro t ht
    rcases List.mem_append.mp ht with h1 | h1
    · rcases List.mem_cons.mp h1 with h2 | h2
      · exact Or.inl h2
      · exact Or.inr (plainSeg_not_dot (hds t h2))
    · rcases hf t h1 with h2 | h2
      · exact Or.inl h2
      · exact Or.inr (plainSeg_not_dot h2)
  have hds_filter : ds.filter (fun t => decide (t ≠ [])) = ds :=
    List.filter_eq_self.mpr (fun t ht => by
      simp [plainSeg_ne_nil (hds t ht)])
  have hclean : cleanAux true [] (([] :: ds) ++ splitSep '/' f)
      = ds ++ (splitSep '/' f).filter (fun s => decide (s ≠ [])) := by
    rw [cleanAux_plain true _ [] hplainOr]
    simp [List.filter_append, hds_filter]
    exact fun a ha => plainSeg_ne_nil (hds a ha)
  have hRchars : ∀ t ∈ ds ++ (splitSep '/' f).filter (fun s => decide (s ≠ [])),
      '/' ∉ t := by
    intro t ht
    rcases List.mem_append.mp ht with h1 | h1
    · exact plainSeg_no_sep (hds t h1)
    · exact mem_splitSep_not_sep '/' f t (List.mem_filter.mp h1).1
  have hRne : ∀ t ∈ ds ++ (splitSep '/' f).filter (fun s => decide (s ≠ [])),
      t ≠ [] := by
    intro t ht
    rcases List.mem_append.mp ht with h1 | h1
    · exact plainSeg_ne_nil (hds t h1)
    · exact of_decide_eq_true (List.mem_filter.mp h1).2
  have hcleanStr : goCleanStr (D ++ '/' :: f)
      = '/' :: joinSep '/' (ds ++ (splitSep '/' f).filter (fun s => decide (s ≠ []))) := by
    have hne2 : D ++ '/' :: f ≠ [] := by simp
    simp only [goCleanStr, if_neg hne2, habs2, hsplit2, hclean]
    simp
  rw [hDj, hcleanStr]

/-- Segment-wise facts about the filtered second element of such a join. -/
theorem joinTail_facts (ds : List Seg) (f : GoStr)
    (hds : ∀ s ∈ ds, plainSeg s = true)
    (hf : ∀ s ∈ splitSep '/' f, s = [] ∨ plainSeg s = true) :
    ∀ t ∈ ds ++ (splitSep '/' f).filter (fun s => decide (s ≠ [])),
      t ≠ [] ∧ '/' ∉ t ∧ t ≠ ['.'] ∧ t ≠ ['.', '.'] := by
  intro t ht
  rcases List.mem_append.mp ht with h1 | h1
  · exact ⟨plainSeg_ne_nil (hds t h1), plainSeg_no_sep (hds t h1),
      plainSeg_not_dot (hds t h1)⟩
  · have hne := of_decide_eq_true (List.mem_filter.mp h1).2
    have hm := (List.mem_filter.mp h1).1
    rcases hf t hm with h2 | h2
    · exact absurd h2 hne
    · exact ⟨hne, plainSeg_no_sep h2, plainSeg_not_dot h2⟩

/-- Resolving a two-element `filepath.Join`: for an absolute target with
plain segments `ds` and a second element whose fields are empty or plain,
the resolved key is `ds` followed by the nonempty fields. -/
theorem resolve_goJoin2 (D : GoStr) (ds : List Seg) (f : GoStr)
    (hD : D ≠ []) (hsplit : splitSep '/' D = [] :: ds)
    (hds : ∀ s ∈ ds, plainSeg s = true)
    (hf : ∀ s ∈ splitSep '/' f, s = [] ∨ plainSeg s = true) :
    resolve (goJoin2 D f)
      = ds ++ (splitSep '/' f).filter (fun s => decide (s ≠ [])) := by
  have hfacts := joinTail_facts ds f hds hf
  have hRchars : ∀ t ∈ ds ++ (splitSep '/' f).filter (fun s => decide (s ≠ [])),
      '/' ∉ t := fun t ht => (hfacts t ht).2.1
  have hRne : ∀ t ∈ ds ++ (splitSep '/' f).filter (fun s => decide (s ≠ [])),
      t ≠ [] := fun t ht => (hfacts t ht).1
  have hRdot : ∀ t ∈ ds ++ (splitSep '/' f).filter (fun s => decide (s ≠ [])),
      t ≠ ['.'] ∧ t ≠ ['.', '.'] := fun t ht => (hfacts t ht).2.2
  rw [goJoin2_abs_plain D ds f hD hsplit hds hf]
  generalize hRdef : ds ++ (splitSep '/' f).filter (fun s => decide (s ≠ [])) = R
    at hRchars hRne hRdot ⊢
  by_cases hRnil : R = []
  · subst hRnil
    decide
  · have hsplitR : splitSep '/' (joinSep '/' R) = R := splitSep_joinSep '/' R hRnil hRchars
    have hstep : splitSep '/' ('/' :: joinSep '/' R) = [] :: R := by
      simp [splitSep, hsplitR]
    have habs3 : isAbs ('/' :: joinSep '/' R) = true := by simp [isAbs]
    simp only [resolve, habs3, hstep]
    rw [cleanAux_plain true ([] :: R) [] (by
      intro t ht
      rcases List.mem_cons.mp ht with h1 | h1
      · exact Or.inl h1
      · exact Or.inr (hRdot t h1))]
    have hfR : R.filter (fun t => decide (t ≠ [])) = R :=
      List.filter_eq_self.mpr (fun t ht => by simp [hRne t ht])
    simp [hfR]
    exact fun a ha => hRne a ha

theorem takeWhile_all_stop (p : Char → Bool) (xs : GoStr) (y : Char) (rest : GoStr)
    (hxs : ∀ x ∈ xs, p x = true) (hy : p y = false) :
    (xs ++ y :: rest).takeWhile p = xs := by
  induction xs with
  | nil => simp [List.takeWhile_cons, hy]
  | cons a l ih =>
    have ha := hxs a (List.mem_cons_self a l)
    rw [List.cons_append, List.takeWhile_cons, ha]
    rw [ih (fun x hx => hxs x (List.mem_cons_of_mem a hx))]
    simp

/-- `path.Base` of a path ending in a separator-free nonempty segment is
that segment. -/
theorem goPathBase_append (pre v : GoStr) (hv : v ≠ []) (hsep : '/' ∉ v) :
    goPathBase (pre ++ '/' :: v) = v := by
  have hne : pre ++ '/' :: v ≠ [] := by simp
  obtain ⟨c, t, hct⟩ : ∃ c t, v.reverse = c :: t := by
    cases hvr : v.reverse with
    | nil => exact absurd (by simpa using congrArg List.reverse hvr) hv
    | cons c t => exact ⟨c, t, rfl⟩
  have hcv : c ∈ v := by
    have : c ∈ v.reverse := by rw [hct]; exact List.mem_cons_self c t
    simpa using this
  have hcslash : (c == '/') = false := by
    simp only [beq_eq_false_iff_ne, ne_eq]
    intro hh
    exact hsep (hh ▸ hcv)
  have hrev : (pre ++ '/' :: v).reverse = c :: (t ++ '/' :: pre.reverse) := by
    rw [List.reverse_append, List.reverse_cons, hct]
    simp
  have hdrop : ((pre ++ '/' :: v).reverse.dropWhile (fun ch => ch == '/')).reverse
      = pre ++ '/' :: v := by
    rw [hrev, List.dropWhile_cons, hcslash]
    simp only [Bool.false_eq_true, if_false]
    rw [← hrev]
    simp
  have hq : (pre ++ '/' :: v) ≠ [] := hne
  have hvall : ∀ x ∈ v.reverse, (!(x == '/')) = true := by
    intro x hx
    have : x ∈ v := by simpa using hx
    simp only [Bool.not_eq_true', beq_eq_false_iff_ne, ne_eq]
    intro hh
    exact hsep (hh ▸ this)
  have htake : ((pre ++ '/' :: v).reverse.takeWhile (fun ch => !(ch == '/'))).reverse
      = v := by
    have : (pre ++ '/' :: v).reverse = v.reverse ++ '/' :: pre.reverse := by
      rw [List.reverse_append, List.reverse_cons]
      simp
    rw [this, takeWhile_all_stop _ v.reverse '/' pre.reverse hvall (by simp)]
    simp
  simp only [goPathBase, if_neg hne, hdrop, if_neg hne, htake, if_neg hv]

/-- `path.Base` of `filepath.Join(root, v)` recovers `v` for an absolute
plain root and a plain segment `v`. -/
theorem goPathBase_goJoin2 (root : GoStr) (rs : List Seg) (v : Seg)
    (hroot : root ≠ []) (hsplit : splitSep '/' root = [] :: rs)
    (hrs : ∀ s ∈ rs, plainSeg s = true) (hv : plainSeg v = true) :
    goPathBase (goJoin2 root v) = v := by
  have hfv : ∀ s ∈ splitSep '/' v, s = [] ∨ plainSeg s = true := by
    intro s hs
    rw [splitSep_no_sep '/' v (plainSeg_no_sep hv)] at hs
    rcases List.mem_singleton.mp hs with h
    exact Or.inr (h ▸ hv)
  rw [goJoin2_abs_plain root rs v hroot hsplit hrs hfv]
  rw [splitSep_no_sep '/' v (plainSeg_no_sep hv)]
  have hfilter : ([v] : List Seg).filter (fun s => decide (s ≠ [])) = [v] := by
    simp [plainSeg_ne_nil hv]
  rw [hfilter, joinSep_snoc]
  by_cases hrsnil : rs = []
  · subst hrsnil
    simp only [if_pos rfl]
    exact goPathBase_append [] v (plainSeg_ne_nil hv) (plainSeg_no_sep hv)
  · rw [if_neg hrsnil]
    have : ('/' :: (joinSep '/' rs ++ '/' :: v)) = ('/' :: joinSep '/' rs) ++ '/' :: v := by
      simp
    rw [this]
    exact goPathBase_append ('/' :: joinSep '/' rs) v (plainSeg_ne_nil hv) (plainSeg_no_sep hv)

/-! ## Order lemmas for the directory-entry sort -/

theorem strLe_total (a b : GoStr) : strLe a b = true ∨ strLe b a = true := by
  induction a generalizing b with
  | nil => exact Or.inl rfl
  | cons x xs ih =>
    cases b with
    | nil => exact Or.inr rfl
    | cons y ys =>
      simp only [strLe]
      rcases lt_trichotomy x y with h | h | h
      · left
        simp [h]
      · subst h
        simpa [lt_irrefl] using ih ys
      · right
        simp [h]

theorem strLe_trans {a b c : GoStr} (h1 : strLe a b = true) (h2 : strLe b c = true) :
    strLe a c = true := by
  induction a generalizing b c with
  | nil => rfl
  | cons x xs ih =>
    cases b with
    | nil => simp [strLe] at h1
    | cons y ys =>
      cases c with
      | nil => simp [strLe] at h2
      | cons z zs =>
        simp only [strLe] at h1 h2 ⊢
        by_cases hxy : x < y
        · by_cases hyz : y < z
          · simp [lt_trans hxy hyz]
          · by_cases hzy : z < y
            · simp [hyz, hzy] at h2
            · have hyz2 : y = z := le_antisymm (not_lt.mp hzy) (not_lt.mp hyz)
              subst hyz2
              simp [hxy]
        · by_cases hyx : y < x
          · simp [hxy, hyx] at h1
          · have hxy2 : x = y := le_antisymm (not_lt.mp hyx) (not_lt.mp hxy)
            subst hxy2
            simp only [if_neg hxy, if_neg hyx] at h1
            by_cases hxz : x < z
            · simp [hxz]
            · by_cases hzx : z < x
              · simp [hxz, hzx] at h2
              · have hxz2 : x = z := le_antisymm (not_lt.mp hzx) (not_lt.mp hxz)
                subst hxz2
                simp only [if_neg hxz, if_neg hzx] at h2 ⊢
                exact ih h1 h2

instance : IsTotal GoFileInfo fiLe := ⟨fun a b => strLe_total a.name b.name⟩

instance : IsTrans GoFileInfo fiLe := ⟨fun _ _ _ h1 h2 => strLe_trans h1 h2⟩

/-! ## Digit lemmas for the canonical version rendering -/

theorem digitChar_ne_v (d : Nat) : digitChar d ≠ 'v' := by
  unfold digitChar
  split <;> decide

theorem mem_natToCharsAux (fuel n : Nat) :
    ∀ c ∈ natToCharsAux fuel n, ∃ d, c = digitChar d := by
  induction fuel generalizing n with
  | zero => simp [natToCharsAux]
  | succ fuel ih =>
    simp only [natToCharsAux]
    by_cases h : n < 10
    · simp only [if_pos h]
      intro c hc
      exact ⟨n, List.mem_singleton.mp hc⟩
    · simp only [if_neg h]
      intro c hc
      rcases List.mem_append.mp hc with h1 | h1
      · exact ih (n / 10) c h1
      · exact ⟨n % 10, List.mem_singleton.mp h1⟩

theorem natToChars_ne_nil (n : Nat) : natToChars n ≠ [] := by
  simp only [natToChars, natToCharsAux]
  by_cases h : n < 10 <;> simp [h]

theorem semverString_head (sv : SemVer) :
    ∃ c t, semverString sv = c :: t ∧ c ≠ 'v' := by
  obtain ⟨c, t, hct⟩ : ∃ c t, natToChars sv.major = c :: t := by
    cases h : natToChars sv.major with
    | nil => exact absurd h (natToChars_ne_nil _)
    | cons c t => exact ⟨c, t, rfl⟩
  obtain ⟨d, hd⟩ := mem_natToCharsAux (sv.major + 1) sv.major c
    (by rw [natToChars] at hct; rw [hct]; exact List.mem_cons_self c t)
  refine ⟨c, t ++ '.' :: natToChars sv.minor ++ '.' :: natToChars sv.patch
    ++ (if sv.pre = [] then [] else '-' :: sv.pre)
    ++ (if sv.meta = [] then [] else '+' :: sv.meta), ?_, hd ▸ digitChar_ne_v d⟩
  simp only [semverString, hct]
  simp

theorem versionNumber_of_head_ne (c : Char) (t : GoStr) (hc : c ≠ 'v') :
    versionNumber (c :: t) = c :: t := by
  unfold versionNumber
  split
  · rename_i rest heq
    exact absurd (List.cons.inj heq).1 hc
  · rfl

theorem versionNumber_semverString (sv : SemVer) :
    versionNumber (semverString sv) = semverString sv := by
  obtain ⟨c, t, hct, hcv⟩ := semverString_head sv
  rw [hct, versionNumber_of_head_ne c t hcv]

/-- Every `Version` a successful `ParseVersion` produces carries no
leading `v`, so `Number` is the identity on it. -/
theorem ParseVersion_no_v {s v : GoStr} (h : ParseVersion s = some v) :
    versionNumber v = v := by
  unfold ParseVersion at h
  cases hns : newSemVer s with
  | none => rw [hns] at h; cases h
  | some sv =>
    rw [hns] at h
    have hv : v = semverString sv := (Option.some_inj.mp h).symm
    rw [hv]
    exact versionNumber_semverString sv

/-! ## List and filesystem helper lemmas -/

theorem mem_initsOf (q l : List Seg) :
    q ∈ initsOf l ↔ ∃ t, q ++ t = l := by
  induction l generalizing q with
  | nil =>
    simp only [initsOf, List.mem_singleton]
    constructor
    · rintro rfl
      exact ⟨[], rfl⟩
    · rintro ⟨t, ht⟩
      exact List.append_eq_nil.mp ht |>.1
  | cons a l ih =>
    simp only [initsOf, List.mem_cons, List.mem_map]
    constructor
    · rintro (rfl | ⟨q2, hq2, rfl⟩)
      · exact ⟨a :: l, rfl⟩
      · obtain ⟨t, ht⟩ := (ih q2).mp hq2
        exact ⟨t, by rw [List.cons_append, ht]⟩
    · rintro ⟨t, ht⟩
      cases q with
      | nil => exact Or.inl rfl
      | cons x xs =>
        rw [List.cons_append] at ht
        have hx : x = a := (List.cons.inj ht).1
        have hxs : xs ++ t = l := (List.cons.inj ht).2
        exact Or.inr ⟨xs, (ih xs).mpr ⟨t, hxs⟩, by rw [hx]⟩

theorem self_mem_initsOf (l : List Seg) : l ∈ initsOf l :=
  (mem_initsOf l l).mpr ⟨[], List.append_nil l⟩

theorem split_prefix_append (q ds p : List Seg) (h : ∃ t, q ++ t = ds ++ p) :
    (∃ t, q ++ t = ds) ∨ ∃ r, (∃ t, r ++ t = p) ∧ q = ds ++ r := by
  obtain ⟨t, ht⟩ := h
  rcases List.append_eq_append_iff.mp ht with ⟨a2, ha1, _⟩ | ⟨c2, hc1, hc2⟩
  · exact Or.inl ⟨a2, ha1.symm⟩
  · exact Or.inr ⟨c2, ⟨t, hc2.symm⟩, hc1⟩

theorem mem_insertDir (ds0 : List (List Seg)) (a k : List Seg) :
    k ∈ insertDir ds0 a ↔ k ∈ ds0 ∨ k = a := by
  unfold insertDir
  by_cases h : a ∈ ds0
  · simp only [if_pos h]
    constructor
    · exact Or.inl
    · rintro (hk | rfl)
      · exact hk
      · exact h
  · simp [if_neg h, or_comm]

theorem mem_foldl_insertDir (l : List (List Seg)) (ds0 : List (List Seg)) (k : List Seg) :
    k ∈ l.foldl insertDir ds0 ↔ k ∈ ds0 ∨ k ∈ l := by
  induction l generalizing ds0 with
  | nil => simp
  | cons a l ih =>
    rw [List.foldl_cons, ih]
    rw [mem_insertDir]
    simp only [List.mem_cons]
    tauto

theorem dropLast_append_ne (a b : List Seg) (hb : b ≠ []) :
    (a ++ b).dropLast = a ++ b.dropLast := by
  induction a with
  | nil => rfl
  | cons x xs ih =>
    rw [List.cons_append, List.cons_append]
    have hne : xs ++ b ≠ [] := by
      intro hh
      exact hb (List.append_eq_nil.mp hh).2
    cases h : xs ++ b with
    | nil => exact absurd h hne
    | cons y ys =>
      rw [← h, List.dropLast_cons_of_ne_nil hne, ih]

theorem append_left_cancel_seg {a b c : List Seg} (h : a ++ b = a ++ c) : b = c := by
  induction a with
  | nil => exact h
  | cons x xs ih => exact ih (List.cons.inj h).2

/-! ## Destination key of one archive entry -/

/-- Renaming a constructed entry name drops the wrapper segment and keeps
the relative path (with tar's trailing slash for directories). -/
theorem renamer_mkName (w : Seg) (e : RelEntry)
    (hw : plainSeg w = true) (hplain : ∀ s ∈ e.path, plainSeg s = true) :
    unarchiveRenamer (mkName w e)
      = joinSep '/' (e.path ++ (if e.isDir then [([] : Seg)] else [])) := by
  have hnosep : ∀ t ∈ w :: e.path, '/' ∉ t := by
    intro t ht
    rcases List.mem_cons.mp ht with h1 | h1
    · exact h1 ▸ plainSeg_no_sep hw
    · exact plainSeg_no_sep (hplain t h1)
  by_cases hdir : e.isDir
  · have hmk : mkName w e = joinSep '/' (w :: e.path) ++ '/' :: ([] : GoStr) := by
      simp [mkName, hdir]
    have hgoal : e.path ++ (if e.isDir then [([] : Seg)] else []) = e.path ++ [[]] := by
      simp [hdir]
    rw [hgoal, hmk]
    unfold unarchiveRenamer
    rw [splitSep_append, splitSep_joinSep '/' (w :: e.path) (by simp) hnosep]
    have hnilsplit : splitSep '/' ([] : GoStr) = [[]] := rfl
    rw [hnilsplit, List.cons_append, List.drop_succ_cons, List.drop_zero]
  · have hmk : mkName w e = joinSep '/' (w :: e.path) := by
      simp [mkName, hdir]
    have hgoal : e.path ++ (if e.isDir then [([] : Seg)] else []) = e.path := by
      simp [hdir]
    rw [hgoal, hmk]
    unfold unarchiveRenamer
    rw [splitSep_joinSep '/' (w :: e.path) (by simp) hnosep]
    rw [List.drop_succ_cons, List.drop_zero]

/-- The resolved destination key of one archive entry is the target key
followed by the entry's relative path. -/
theorem entry_key (w : Seg) (e : RelEntry) (D : GoStr) (ds : List Seg)
    (hw : plainSeg w = true) (hplain : ∀ s ∈ e.path, plainSeg s = true)
    (hD : D ≠ []) (hsplitD : splitSep '/' D = [] :: ds)
    (hds : ∀ s ∈ ds, plainSeg s = true) :
    resolve (goJoin2 D (unarchiveRenamer (mkHeader w e).name)) = ds ++ e.path := by
  have hname : (mkHeader w e).name = mkName w e := rfl
  rw [hname, renamer_mkName w e hw hplain]
  have hnosep2 : ∀ t ∈ e.path ++ (if e.isDir then [([] : Seg)] else []), '/' ∉ t := by
    intro t ht
    rcases List.mem_append.mp ht with h1 | h1
    · exact plainSeg_no_sep (hplain t h1)
    · by_cases hdir : e.isDir
      · rw [if_pos hdir] at h1
        rw [List.mem_singleton.mp h1]
        simp
      · rw [if_neg hdir] at h1
        simp at h1
  set tail : List Seg := e.path ++ (if e.isDir then [([] : Seg)] else []) with htail
  by_cases htnil : tail = []
  · have hpath : e.path = [] :=
      (List.append_eq_nil.mp (htail.symm.trans htnil)).1
    have hjnil : joinSep '/' tail = [] := by rw [htnil]; rfl
    rw [hjnil]
    have hsf : splitSep '/' ([] : GoStr) = [[]] := rfl
    rw [resolve_goJoin2 D ds [] hD hsplitD hds
      (by rw [hsf]; intro s hs; exact Or.inl (List.mem_singleton.mp hs))]
    rw [hsf, hpath]
    simp
  · have hsf : splitSep '/' (joinSep '/' tail) = tail :=
      splitSep_joinSep '/' tail htnil hnosep2
    have hor : ∀ s ∈ splitSep '/' (joinSep '/' tail), s = [] ∨ plainSeg s = true := by
      rw [hsf]
      intro s hs
      rcases List.mem_append.mp hs with h1 | h1
      · exact Or.inr (hplain s h1)
      · by_cases hdir : e.isDir
        · rw [if_pos hdir] at h1
          exact Or.inl (List.mem_singleton.mp h1)
        · rw [if_neg hdir] at h1
          simp at h1
    rw [resolve_goJoin2 D ds (joinSep '/' tail) hD hsplitD hds hor, hsf, htail]
    rw [List.filter_append]
    have h1 : e.path.filter (fun s => decide (s ≠ [])) = e.path :=
      List.filter_eq_self.mpr (fun t ht => by simp [plainSeg_ne_nil (hplain t ht)])
    have h2 : ((if e.isDir then [([] : Seg)] else []) : List Seg).filter
        (fun s => decide (s ≠ [])) = [] := by
      by_cases hdir : e.isDir <;> simp [hdir]
    rw [h1, h2, List.append_nil]

/-! ## Extraction invariant -/

/-- During extraction, no key at or above the target, and no key the
archive has not yet written, holds a regular file or a link. -/
theorem no_file_link_at
    (ds : List Seg) (fs0 fs : FState) (F : List (List Seg × List Nat))
    (hfs0_file : ∀ t ∈ fs0.files.map Prod.fst,
      (∀ q ∈ initsOf ds, t ≠ q) ∧ ∀ q : List Seg, q ≠ [] → t ≠ ds ++ q)
    (hfs0_link : ∀ t ∈ fs0.links.map Prod.fst,
      (∀ q ∈ initsOf ds, t ≠ q) ∧ ∀ q : List Seg, q ≠ [] → t ≠ ds ++ q)
    (hF_ne : ∀ q ∈ F.map Prod.fst, q ≠ [])
    (Ib : ∀ kc : List Seg × List Nat,
      kc ∈ fs.files ↔ kc ∈ fs0.files ∨ ∃ pc ∈ F, kc = (ds ++ pc.1, pc.2))
    (Il : fs.links = fs0.links)
    (q : List Seg)
    (hq : q ∈ initsOf ds ∨ ∃ r : List Seg, r ≠ [] ∧ r ∉ F.map Prod.fst ∧ q = ds ++ r) :
    hasFile fs q = false ∧ hasLink fs q = false := by
  constructor
  · simp only [hasFile, decide_eq_false_iff_not]
    intro hmem
    obtain ⟨kc, hkc, hfst⟩ := List.mem_map.mp hmem
    rcases (Ib kc).mp hkc with hkc0 | ⟨pc, hpc, hkceq⟩
    · have hfs0 := hfs0_file kc.1 (List.mem_map_of_mem Prod.fst hkc0)
      rcases hq with hq1 | ⟨r, hrne, _, rfl⟩
      · exact hfs0.1 q hq1 hfst
      · exact hfs0.2 r hrne hfst
    · have hkc1 : kc.1 = ds ++ pc.1 := by rw [hkceq]
      have hpcne : pc.1 ≠ [] := hF_ne pc.1 (List.mem_map_of_mem Prod.fst hpc)
      rcases hq with hq1 | ⟨r, hrne, hrF, rfl⟩
      · obtain ⟨t, ht⟩ := (mem_initsOf q ds).mp hq1
        have hlen1 : q.length + t.length = ds.length := by
          rw [← List.length_append, ht]
        have hlen2 : q.length = ds.length + pc.1.length := by
          rw [← hfst, hkc1, List.length_append]
        have hpos : 0 < pc.1.length := List.length_pos.mpr hpcne
        omega
      · have : ds ++ r = ds ++ pc.1 := by rw [← hfst, hkc1]
        have hr : r = pc.1 := append_left_cancel_seg this
        exact hrF (hr ▸ List.mem_map_of_mem Prod.fst hpc)
  · simp only [hasLink, Il, decide_eq_false_iff_not]
    intro hmem
    have hfs0 := hfs0_link q hmem
    rcases hq with hq1 | ⟨r, hrne, _, rfl⟩
    · exact hfs0.1 q hq1 rfl
    · exact hfs0.2 r hrne rfl

/-- Main extraction invariant: running the entry loop of `unTarGzip` over
a well-formed wrapped archive succeeds and adds exactly the renamed
directories and files to the filesystem. -/
theorem untarLoop_spec
    (w : Seg) (D : GoStr) (ds : List Seg) (fs0 : FState)
    (hw : plainSeg w = true)
    (hD : D ≠ []) (hsplitD : splitSep '/' D = [] :: ds)
    (hds : ∀ s ∈ ds, plainSeg s = true)
    (hroot : ∀ q ∈ initsOf ds, q ∈ fs0.dirs)
    (hfree_dir : ∀ q : List Seg, q ≠ [] → ds ++ q ∉ fs0.dirs)
    (hfs0_file : ∀ t ∈ fs0.files.map Prod.fst,
      (∀ q ∈ initsOf ds, t ≠ q) ∧ ∀ q : List Seg, q ≠ [] → t ≠ ds ++ q)
    (hfs0_link : ∀ t ∈ fs0.links.map Prod.fst,
      (∀ q ∈ initsOf ds, t ≠ q) ∧ ∀ q : List Seg, q ≠ [] → t ≠ ds ++ q) :
    ∀ (es : List RelEntry) (fs : FState) (seen : List (List Seg))
      (F : List (List Seg × List Nat)),
      archiveOkB seen (F.map Prod.fst) es = true →
      (∀ q ∈ seen, q ≠ []) →
      (∀ q ∈ seen, ∀ r : List Seg, r ≠ [] → (∃ t, r ++ t = q) → r ∈ seen) →
      (∀ q ∈ F.map Prod.fst, q ≠ []) →
      (∀ q ∈ seen, q ∉ F.map Prod.fst) →
      (∀ k, k ∈ fs.dirs ↔ k ∈ fs0.dirs ∨ ∃ q ∈ seen, k = ds ++ q) →
      (∀ kc : List Seg × List Nat,
        kc ∈ fs.files ↔ kc ∈ fs0.files ∨ ∃ pc ∈ F, kc = (ds ++ pc.1, pc.2)) →
      fs.links = fs0.links →
      ∃ fs1, untarLoop D (some unarchiveRenamer) (es.map (mkHeader w)) false fs
          = .ok fs1
        ∧ (∀ k, k ∈ fs1.dirs ↔ k ∈ fs0.dirs ∨ (∃ q ∈ seen, k = ds ++ q)
              ∨ ∃ e ∈ es, e.isDir = true ∧ k = ds ++ e.path)
        ∧ (∀ kc : List Seg × List Nat, kc ∈ fs1.files ↔ kc ∈ fs0.files
              ∨ (∃ pc ∈ F, kc = (ds ++ pc.1, pc.2))
              ∨ ∃ e ∈ es, e.isDir = false ∧ kc = (ds ++ e.path, e.content))
        ∧ fs1.links = fs0.links := by
  intro es
  induction es with
  | nil =>
    intro fs seen F _hok _h1 _h2 _h3 _h4 Ia Ib Il
    refine ⟨fs, rfl, ?_, ?_, Il⟩
    · intro k
      rw [Ia k]
      simp
    · intro kc
      rw [Ib kc]
      simp
  | cons e rest ih =>
    intro fs seen F hok hseen_ne hseen_cl hF_ne hdisj Ia Ib Il
    have hmap : (e :: rest).map (mkHeader w) = mkHeader w e :: rest.map (mkHeader w) := rfl
    rw [hmap]
    by_cases hdir : e.isDir
    · -- directory entry
      simp only [archiveOkB, hdir, if_true, Bool.and_eq_true, Bool.or_eq_true,
        decide_eq_true_eq, List.all_eq_true] at hok
      obtain ⟨⟨hplain, hparent⟩, hnotF, hok2⟩ := hok
      have hkey2 : resolve (goJoin2 D (unarchiveRenamer (mkName w e))) = ds ++ e.path :=
        entry_key w e D ds hw hplain hD hsplitD hds
      have hproper : ∀ r : List Seg, r ≠ [] → (∃ t, t ≠ [] ∧ r ++ t = e.path) →
          r ∈ seen := by
        rintro r hrne ⟨t, htne, hrt⟩
        have hdl : e.path.dropLast = r ++ t.dropLast := by
          rw [← hrt, dropLast_append_ne r t htne]
        rcases hparent with hp1 | hp2
        · exfalso
          rw [hp1] at hdl
          exact hrne (List.append_eq_nil.mp hdl.symm).1
        · exact hseen_cl e.path.dropLast hp2 r hrne ⟨t.dropLast, hdl.symm⟩
      have hsafe : ((initsOf (ds ++ e.path)).any
          (fun q => hasFile fs q || hasLink fs q)) = false := by
        rw [List.any_eq_false]
        intro q hq
        have hcase := split_prefix_append q ds e.path ((mem_initsOf q _).mp hq)
        have hfl : hasFile fs q = false ∧ hasLink fs q = false := by
          apply no_file_link_at ds fs0 fs F hfs0_file hfs0_link hF_ne Ib Il q
          rcases hcase with h1 | ⟨r, hpr, rfl⟩
          · exact Or.inl ((mem_initsOf q ds).mpr h1)
          · by_cases hrnil : r = []
            · subst hrnil
              rw [List.append_nil]
              exact Or.inl (self_mem_initsOf ds)
            · refine Or.inr ⟨r, hrnil, ?_, rfl⟩
              rcases hpr with ⟨t, ht⟩
              by_cases htnil : t = []
              · subst htnil
                rw [List.append_nil] at ht
                subst ht
                exact hnotF
              · exact hdisj r (hproper r hrnil ⟨t, htnil, ht⟩)
        simp [hfl.1, hfl.2]
      have hmk : mkdirAll fs (ds ++ e.path)
          = some { fs with dirs := (initsOf (ds ++ e.path)).foldl insertDir fs.dirs } := by
        simp [mkdirAll, hsafe]
      have hmem2 : ∀ q, q ∈ (if e.path = [] then seen else e.path :: seen)
          ↔ q ∈ seen ∨ (e.path ≠ [] ∧ q = e.path) := by
        intro q
        by_cases hpnil : e.path = []
        · simp [hpnil]
        · simp only [if_neg hpnil, List.mem_cons]
          tauto
      have hseen_ne2 : ∀ q ∈ (if e.path = [] then seen else e.path :: seen), q ≠ [] := by
        intro q hq
        rcases (hmem2 q).mp hq with h1 | ⟨hp, rfl⟩
        · exact hseen_ne q h1
        · exact hp
      have hseen_cl2 : ∀ q ∈ (if e.path = [] then seen else e.path :: seen),
          ∀ r : List Seg, r ≠ [] → (∃ t, r ++ t = q) →
            r ∈ (if e.path = [] then seen else e.path :: seen) := by
        intro q hq r hrne hpr
        rcases (hmem2 q).mp hq with h1 | ⟨hp, rfl⟩
        · exact (hmem2 r).mpr (Or.inl (hseen_cl q h1 r hrne hpr))
        · rcases hpr with ⟨t, ht⟩
          by_cases htnil : t = []
          · subst htnil
            rw [List.append_nil] at ht
            exact (hmem2 r).mpr (Or.inr ⟨hp, ht⟩)
          · exact (hmem2 r).mpr (Or.inl (hproper r hrne ⟨t, htnil, ht⟩))
      have hdisj2 : ∀ q ∈ (if e.path = [] then seen else e.path :: seen),
          q ∉ F.map Prod.fst := by
        intro q hq
        rcases (hmem2 q).mp hq with h1 | ⟨_, rfl⟩
        · exact hdisj q h1
        · exact hnotF
      have Ia2 : ∀ k, k ∈ ((initsOf (ds ++ e.path)).foldl insertDir fs.dirs)
          ↔ k ∈ fs0.dirs ∨ ∃ q ∈ (if e.path = [] then seen else e.path :: seen),
              k = ds ++ q := by
        intro k
        rw [mem_foldl_insertDir, Ia k]
        constructor
        · rintro ((h0 | ⟨q, hq, rfl⟩) | hinit)
          · exact Or.inl h0
          · exact Or.inr ⟨q, (hmem2 q).mpr (Or.inl hq), rfl⟩
          · rcases split_prefix_append k ds e.path ((mem_initsOf k _).mp hinit)
              with h1 | ⟨r, hpr, rfl⟩
            · exact Or.inl (hroot k ((mem_initsOf k ds).mpr h1))
            · by_cases hrnil : r = []
              · subst hrnil
                rw [List.append_nil]
                exact Or.inl (hroot ds (self_mem_initsOf ds))
              · rcases hpr with ⟨t, ht⟩
                by_cases htnil : t = []
                · subst htnil
                  rw [List.append_nil] at ht
                  exact Or.inr ⟨r, (hmem2 r).mpr (Or.inr ⟨ht ▸ hrnil, ht⟩), rfl⟩
                · exact Or.inr ⟨r,
                    (hmem2 r).mpr (Or.inl (hproper r hrnil ⟨t, htnil, ht⟩)), rfl⟩
        · rintro (h0 | ⟨q, hq, rfl⟩)
          · exact Or.inl (Or.inl h0)
          · rcases (hmem2 q).mp hq with h1 | ⟨_, hqe⟩
            · exact Or.inl (Or.inr ⟨q, h1, rfl⟩)
            · rw [hqe]
              exact Or.inr (self_mem_initsOf (ds ++ e.path))
      obtain ⟨fs2, hrun, Hd, Hf, Hl⟩ := ih
        { fs with dirs := (initsOf (ds ++ e.path)).foldl insertDir fs.dirs }
        (if e.path = [] then seen else e.path :: seen) F
        hok2 hseen_ne2 hseen_cl2 hF_ne hdisj2 Ia2 Ib Il
      refine ⟨fs2, ?_, ?_, ?_, Hl⟩
      · simp only [untarLoop, mkHeader, hdir, if_true, hkey2, hmk]
        exact hrun
      · intro k
        rw [Hd k]
        constructor
        · rintro (h0 | ⟨q, hq, rfl⟩ | ⟨e2, he2, hde2, rfl⟩)
          · exact Or.inl h0
          · rcases (hmem2 q).mp hq with h1 | ⟨_, rfl⟩
            · exact Or.inr (Or.inl ⟨q, h1, rfl⟩)
            · exact Or.inr (Or.inr ⟨e, List.mem_cons_self e rest, hdir, rfl⟩)
          · exact Or.inr (Or.inr ⟨e2, List.mem_cons_of_mem e he2, hde2, rfl⟩)
        · rintro (h0 | ⟨q, hq, rfl⟩ | ⟨e2, he2, hde2, rfl⟩)
          · exact Or.inl h0
          · exact Or.inr (Or.inl ⟨q, (hmem2 q).mpr (Or.inl hq), rfl⟩)
          · rcases List.mem_cons.mp he2 with rfl | he3
            · by_cases hpnil : e2.path = []
              · rw [hpnil, List.append_nil]
                exact Or.inl (hroot ds (self_mem_initsOf ds))
              · exact Or.inr (Or.inl ⟨e2.path, (hmem2 e2.path).mpr
                  (Or.inr ⟨hpnil, rfl⟩), rfl⟩)
            · exact Or.inr (Or.inr ⟨e2, he3, hde2, rfl⟩)
      · intro kc
        rw [Hf kc]
        constructor
        · rintro (h0 | hF | ⟨e2, he2, hde2, rfl⟩)
          · exact Or.inl h0
          · exact Or.inr (Or.inl hF)
          · exact Or.inr (Or.inr ⟨e2, List.mem_cons_of_mem e he2, hde2, rfl⟩)
        · rintro (h0 | hF | ⟨e2, he2, hde2, rfl⟩)
          · exact Or.inl h0
          · exact Or.inr (Or.inl hF)
          · rcases List.mem_cons.mp he2 with rfl | he3
            · rw [hdir] at hde2
              cases hde2
            · exact Or.inr (Or.inr ⟨e2, he3, hde2, rfl⟩)
    · -- file entry
      have hdirf : e.isDir = false := Bool.not_eq_true e.isDir ▸ hdir
      simp only [archiveOkB, hdirf, Bool.false_eq_true, if_false, Bool.and_eq_true,
        Bool.or_eq_true, decide_eq_true_eq, List.all_eq_true] at hok
      obtain ⟨⟨hplain, hparent⟩, ⟨⟨hpne, hnotSeen⟩, hnotF⟩, hok2⟩ := hok
      have hkey2 : resolve (goJoin2 D (unarchiveRenamer (mkName w e))) = ds ++ e.path :=
        entry_key w e D ds hw hplain hD hsplitD hds
      have hflk := no_file_link_at ds fs0 fs F hfs0_file hfs0_link hF_ne Ib Il
        (ds ++ e.path) (Or.inr ⟨e.path, hpne, hnotF, rfl⟩)
      have hdirk : hasDir fs (ds ++ e.path) = false := by
        simp only [hasDir, decide_eq_false_iff_not]
        intro hmem
        rcases (Ia _).mp hmem with h0 | ⟨q, hq, heq⟩
        · exact hfree_dir e.path hpne h0
        · have hqe : e.path = q := append_left_cancel_seg heq
          exact hnotSeen (hqe ▸ hq)
      have hnotfile : (ds ++ e.path) ∉ fs.files.map Prod.fst := by
        have := hflk.1
        simpa [hasFile, decide_eq_false_iff_not] using this
      have hfilter : fs.files.filter (fun qc => decide (qc.1 ≠ ds ++ e.path))
          = fs.files := by
        apply List.filter_eq_self.mpr
        intro x hx
        simp only [decide_eq_true_eq]
        intro hxk
        exact hnotfile (hxk ▸ List.mem_map_of_mem Prod.fst hx)
      have hkdl : (ds ++ e.path).dropLast = ds ++ e.path.dropLast :=
        dropLast_append_ne ds e.path hpne
      have hpar : hasDir fs (ds ++ e.path).dropLast = true := by
        simp only [hasDir, decide_eq_true_eq, hkdl]
        rcases hparent with hp1 | hp2
        · rw [hp1, List.append_nil]
          exact (Ia ds).mpr (Or.inl (hroot ds (self_mem_initsOf ds)))
        · exact (Ia _).mpr (Or.inr ⟨e.path.dropLast, hp2, rfl⟩)
      have how : openWrite fs (ds ++ e.path) e.content
          = some { fs with files := (ds ++ e.path, e.content) :: fs.files } := by
        simp [openWrite, hdirk, hflk.2, hpar, hfilter]
        intro a b hab hae
        exact hnotfile (hae ▸ List.mem_map_of_mem Prod.fst hab)
      have hF_ne2 : ∀ q ∈ ((e.path, e.content) :: F).map Prod.fst, q ≠ [] := by
        intro q hq
        rcases List.mem_cons.mp hq with rfl | h1
        · exact hpne
        · exact hF_ne q h1
      have hdisj2 : ∀ q ∈ seen, q ∉ ((e.path, e.content) :: F).map Prod.fst := by
        intro q hq hmem
        rcases List.mem_cons.mp hmem with rfl | h1
        · exact hnotSeen hq
        · exact hdisj q hq h1
      have Ib2 : ∀ kc : List Seg × List Nat,
          kc ∈ ((ds ++ e.path, e.content) :: fs.files) ↔ kc ∈ fs0.files
            ∨ ∃ pc ∈ (e.path, e.content) :: F, kc = (ds ++ pc.1, pc.2) := by
        intro kc
        rw [List.mem_cons, Ib kc]
        constructor
        · rintro (rfl | h0 | ⟨pc, hpc, rfl⟩)
          · exact Or.inr ⟨(e.path, e.content), List.mem_cons_self _ _, rfl⟩
          · exact Or.inl h0
          · exact Or.inr ⟨pc, List.mem_cons_of_mem _ hpc, rfl⟩
        · rintro (h0 | ⟨pc, hpc, rfl⟩)
          · exact Or.inr (Or.inl h0)
          · rcases List.mem_cons.mp hpc with rfl | hpc2
            · exact Or.inl rfl
            · exact Or.inr (Or.inr ⟨pc, hpc2, rfl⟩)
      obtain ⟨fs2, hrun, Hd, Hf, Hl⟩ := ih
        { fs with files := (ds ++ e.path, e.content) :: fs.files }
        seen ((e.path, e.content) :: F)
        hok2 hseen_ne hseen_cl hF_ne2 hdisj2 Ia Ib2 Il
      refine ⟨fs2, ?_, ?_, ?_, Hl⟩
      · simp only [untarLoop, mkHeader, hdirf, if_false, hkey2, how]
        exact hrun
      · intro k
        rw [Hd k]
        constructor
        · rintro (h0 | ⟨q, hq, rfl⟩ | ⟨e2, he2, hde2, rfl⟩)
          · exact Or.inl h0
          · exact Or.inr (Or.inl ⟨q, hq, rfl⟩)
          · exact Or.inr (Or.inr ⟨e2, List.mem_cons_of_mem e he2, hde2, rfl⟩)
        · rintro (h0 | ⟨q, hq, rfl⟩ | ⟨e2, he2, hde2, rfl⟩)
          · exact Or.inl h0
          · exact Or.inr (Or.inl ⟨q, hq, rfl⟩)
          · rcases List.mem_cons.mp he2 with rfl | he3
            · rw [hdirf] at hde2
              cases hde2
            · exact Or.inr (Or.inr ⟨e2, he3, hde2, rfl⟩)
      · intro kc
        rw [Hf kc]
        constructor
        · rintro (h0 | ⟨pc, hpc, rfl⟩ | ⟨e2, he2, hde2, rfl⟩)
          · exact Or.inl h0
          · rcases List.mem_cons.mp hpc with rfl | hpc2
            · exact Or.inr (Or.inr ⟨e, List.mem_cons_self e rest, hdirf, rfl⟩)
            · exact Or.inr (Or.inl ⟨pc, hpc2, rfl⟩)
          · exact Or.inr (Or.inr ⟨e2, List.mem_cons_of_mem e he2, hde2, rfl⟩)
        · rintro (h0 | ⟨pc, hpc, rfl⟩ | ⟨e2, he2, hde2, rfl⟩)
          · exact Or.inl h0
          · exact Or.inr (Or.inl ⟨pc, List.mem_cons_of_mem _ hpc, rfl⟩)
          · rcases List.mem_cons.mp he2 with rfl | he3
            · exact Or.inr (Or.inl ⟨(e2.path, e2.content), List.mem_cons_self _ _, rfl⟩)
            · exact Or.inr (Or.inr ⟨e2, he3, hde2, rfl⟩)

/-! ## Helper lemmas about `Use` and `current` -/

/-- Joining an absolute plain root with one plain segment resolves to the
root key extended by that segment. -/
theorem resolve_goJoin2_seg (D : GoStr) (ds : List Seg) (v : Seg)
    (hD : D ≠ []) (hsplit : splitSep '/' D = [] :: ds)
    (hds : ∀ s ∈ ds, plainSeg s = true) (hv : plainSeg v = true) :
    resolve (goJoin2 D v) = ds ++ [v] := by
  have hfv : ∀ s ∈ splitSep '/' v, s = [] ∨ plainSeg s = true := by
    rw [splitSep_no_sep '/' v (plainSeg_no_sep hv)]
    intro s hs
    exact Or.inr ((List.mem_singleton.mp hs) ▸ hv)
  rw [resolve_goJoin2 D ds v hD hsplit hds hfv]
  rw [splitSep_no_sep '/' v (plainSeg_no_sep hv)]
  simp [plainSeg_ne_nil hv]

/-- A strict extension of a segment list is not among its own prefix
keys. -/
theorem not_mem_initsOf_append (ds q : List Seg) (hq : q ≠ []) :
    ds ++ q ∉ initsOf ds := by
  intro hmem
  obtain ⟨t, ht⟩ := (mem_initsOf _ _).mp hmem
  have hlen := congrArg List.length ht
  simp only [List.length_append] at hlen
  have : q.length = 0 := by omega
  exact hq (List.length_eq_zero.mp this)

/-- Removing the current-link key when no directory or file occupies it
leaves directories and files untouched and guarantees the key holds no
link afterwards. -/
theorem removePath_current (fs : FState) (k : List Seg)
    (hnd : k ∉ fs.dirs) (hnf : k ∉ fs.files.map Prod.fst) :
    (removePath fs k).dirs = fs.dirs
    ∧ (removePath fs k).files = fs.files
    ∧ hasLink (removePath fs k) k = false := by
  have hf : hasFile fs k = false := by simp [hasFile, hnf]
  have hd : hasDir fs k = false := by simp [hasDir, hnd]
  unfold removePath
  by_cases hl : hasLink fs k = true
  · rw [if_pos hl]
    refine ⟨rfl, rfl, ?_⟩
    simp only [hasLink, decide_eq_false_iff_not]
    intro hmem
    obtain ⟨q, hq, hq1⟩ := List.mem_map.mp hmem
    exact (of_decide_eq_true (List.mem_filter.mp hq).2) hq1
  · have hl2 : hasLink fs k = false := Bool.eq_false_iff.mpr hl
    rw [if_neg hl]
    simp only [hf, hd, Bool.false_and, Bool.false_eq_true, if_false]
    exact ⟨trivial, trivial, hl2⟩

/-- Creating the symlink succeeds when nothing occupies the new key. -/
theorem symlink_create (fs : FState) (k : List Seg) (t : GoStr)
    (hd : k ∉ fs.dirs) (hf : k ∉ fs.files.map Prod.fst) (hl : hasLink fs k = false) :
    symlinkIfPossible fs k t = some { fs with links := (k, t) :: fs.links } := by
  have hd2 : hasDir fs k = false := by simp [hasDir, hd]
  have hf2 : hasFile fs k = false := by simp [hasFile, hf]
  simp [symlinkIfPossible, hd2, hf2, hl]

/-- Full evaluation of a successful `Use`: under an absolute plain root
with the version directory present and the current slot free of
directories and files, `Use` removes any current link and records the new
one. -/
theorem Use_success (e : Executor) (fs : FState) (v : Version) (rs : List Seg)
    (hos : e.isOsFs = true) (hrne : e.installPath ≠ [])
    (hsplit : splitSep '/' e.installPath = [] :: rs)
    (hrs : ∀ s ∈ rs, plainSeg s = true) (hv : plainSeg v = true)
    (hd : rs ++ [v] ∈ fs.dirs)
    (hcd : rs ++ ["current".data] ∉ fs.dirs)
    (hcf : rs ++ ["current".data] ∉ fs.files.map Prod.fst) :
    Use e fs v = ⟨{ removePath fs (rs ++ ["current".data]) with
        links := (rs ++ ["current".data], goJoin2 e.installPath v)
          :: (removePath fs (rs ++ ["current".data])).links }, none⟩ := by
  have hkv := resolve_goJoin2_seg e.installPath rs v hrne hsplit hrs hv
  have hkc := resolve_goJoin2_seg e.installPath rs ("current".data) hrne hsplit hrs
    (by decide)
  have hrm := removePath_current fs (rs ++ ["current".data]) hcd hcf
  have hdv : hasDir fs (rs ++ [v]) = true := by simp [hasDir, hd]
  have hsym := symlink_create (removePath fs (rs ++ ["current".data]))
    (rs ++ ["current".data]) (goJoin2 e.installPath v)
    (hrm.1 ▸ hcd) (hrm.2.1 ▸ hcf) hrm.2.2
  simp only [Use, versionString, hos, hkv, hkc, hdv, hsym]
  simp

/-! ## Claims -/

/-- C1: for every archive whose entries are all prefixed with a single
wrapper path segment `w` (and are well-formed: plain segments, parents
listed before children, no path collisions), extracting it with
`unTarGzip` under `unarchiveRenamer` into an existing target directory
that is empty below succeeds and produces exactly the directories and
files that existed under the wrapper segment, with the first path segment
removed from every entry's path and each extracted file's content
byte-identical to the archive entry's content. -/
theorem c1_roundtrip_extraction
    (w : Seg) (D : GoStr) (ds : List Seg) (fs0 : FState) (es : List RelEntry)
    (hw : plainSeg w = true)
    (hD : D ≠ []) (hsplitD : splitSep '/' D = [] :: ds)
    (hds : ∀ s ∈ ds, plainSeg s = true)
    (hroot : ∀ q ∈ initsOf ds, q ∈ fs0.dirs)
    (hfree_dir : ∀ q : List Seg, q ≠ [] → ds ++ q ∉ fs0.dirs)
    (hfs0_file : ∀ t ∈ fs0.files.map Prod.fst,
      (∀ q ∈ initsOf ds, t ≠ q) ∧ ∀ q : List Seg, q ≠ [] → t ≠ ds ++ q)
    (hfs0_link : ∀ t ∈ fs0.links.map Prod.fst,
      (∀ q ∈ initsOf ds, t ≠ q) ∧ ∀ q : List Seg, q ≠ [] → t ≠ ds ++ q)
    (hok : archiveOkB [] [] es = true) :
    ∃ fs1,
      unTarGzip (GzBuf.gz (es.map (mkHeader w)) false) D (some unarchiveRenamer) fs0
        = ExtractOut.ok fs1
      ∧ (∀ k, k ∈ fs1.dirs
          ↔ k ∈ fs0.dirs ∨ ∃ e ∈ es, e.isDir = true ∧ k = ds ++ e.path)
      ∧ (∀ kc : List Seg × List Nat, kc ∈ fs1.files
          ↔ kc ∈ fs0.files ∨ ∃ e ∈ es, e.isDir = false ∧ kc = (ds ++ e.path, e.content))
      ∧ fs1.links = fs0.links := by
  obtain ⟨fs1, hrun, Hd, Hf, Hl⟩ := untarLoop_spec w D ds fs0 hw hD hsplitD hds hroot
    hfree_dir hfs0_file hfs0_link es fs0 [] [] hok (by simp) (by simp) (by simp)
    (by simp) (fun k => by simp) (fun kc => by simp) rfl
  refine ⟨fs1, hrun, ?_, ?_, Hl⟩
  · intro k
    rw [Hd k]
    simp
  · intro kc
    rw [Hf kc]
    simp

/-- Witness for C1 at a concrete two-file archive wrapped in `go/`. -/
theorem c1_roundtrip_extraction_witness :
    ∃ fs1,
      unTarGzip
        (GzBuf.gz (([⟨[], true, []⟩, ⟨["bin".data], true, []⟩,
            ⟨["bin".data, "go".data], false, [1, 2]⟩,
            ⟨["VERSION".data], false, [7]⟩] : List RelEntry).map (mkHeader ("go".data)))
          false)
        ("/r/1.17.1".data) (some unarchiveRenamer)
        ⟨initsOf [['r'], "1.17.1".data], [], []⟩
        = ExtractOut.ok fs1 := by
  obtain ⟨fs1, h1, -, -, -⟩ := c1_roundtrip_extraction ("go".data) ("/r/1.17.1".data)
    [['r'], "1.17.1".data] ⟨initsOf [['r'], "1.17.1".data], [], []⟩
    [⟨[], true, []⟩, ⟨["bin".data], true, []⟩,
      ⟨["bin".data, "go".data], false, [1, 2]⟩, ⟨["VERSION".data], false, [7]⟩]
    (by decide) (by decide) (by decide) (by decide) (by decide)
    (fun q hq hmem => not_mem_initsOf_append _ q hq hmem)
    (by simp) (by simp) (by decide)
  exact ⟨fs1, h1⟩

/-- C2: the artifact name built for a parsed version follows
`go<bareVersion>.<os>-<arch>.tar.gz`: the code passes `version.String()`
to the formatter, and on every parsed version `String()` coincides with
the bare `Number()` form, which carries no leading `v` even when the
parsed input had one. -/
theorem c2_artifact_name (s : GoStr) (v : Version) (os arch : GoStr)
    (h : ParseVersion s = some v) :
    formatGoArchiveArtifactName os arch (versionString v)
      = "go".data ++ versionNumber v ++ ".".data ++ os ++ "-".data ++ arch
          ++ ".tar.gz".data
    ∧ versionNumber v = v := by
  have hnum := ParseVersion_no_v h
  exact ⟨by simp [formatGoArchiveArtifactName, versionString, hnum], hnum⟩

/-- Witness for C2: parsing `v1.17.1` still yields an artifact version
part with no `v` prefix. -/
theorem c2_artifact_name_witness :
    formatGoArchiveArtifactName ("linux".data) ("amd64".data)
        (versionString ("1.17.1".data))
      = "go".data ++ versionNumber ("1.17.1".data) ++ ".".data ++ "linux".data
          ++ "-".data ++ "amd64".data ++ ".tar.gz".data
    ∧ versionNumber ("1.17.1".data) = "1.17.1".data :=
  c2_artifact_name ("v1.17.1".data) ("1.17.1".data) ("linux".data) ("amd64".data)
    (by decide)

/-- C3 counterexample: a 404 response is copied into the buffer and
reported as success — the status code is never inspected, refuting the
claim that a non-success status yields an error. -/
theorem c3_counterexample :
    download (HttpOutcome.response 404 [60, 104, 116, 109, 108, 62] false)
      = { buf := [60, 104, 116, 109, 108, 62], err := false } := rfl

/-- C3 amended: `download` returns an error exactly on request creation
failure, transport failure, or a body-read failure; when it reports
success the buffer holds the full response body as delivered — but the
HTTP status is never checked, so a 4xx/5xx body is treated as success. -/
theorem c3_download_error_semantics (o : HttpOutcome) :
    ((o = HttpOutcome.reqError ∨ o = HttpOutcome.netError) → (download o).err = true)
    ∧ (∀ s b, o = HttpOutcome.response s b true → (download o).err = true)
    ∧ ((download o).err = false
        → ∃ s b, o = HttpOutcome.response s b false ∧ (download o).buf = b) := by
  refine ⟨?_, ?_, ?_⟩
  · rintro (rfl | rfl) <;> rfl
  · rintro s b rfl
    rfl
  · intro h
    cases o with
    | reqError => cases h
    | netError => cases h
    | response s b r =>
      cases r with
      | true => cases h
      | false => exact ⟨s, b, rfl, rfl⟩

/-- Witness for the amended C3 at a transport failure. -/
theorem c3_download_error_semantics_witness :
    (download HttpOutcome.netError).err = true :=
  (c3_download_error_semantics HttpOutcome.netError).1 (Or.inr rfl)

/-- C4 counterexample: when `current` exists as a real directory under
the root, the listing includes the literal name `current`, refuting the
claim that it is always excluded. -/
theorem c4_counterexample :
    list ⟨"/r".data, true⟩
        ⟨[[], [['r']], [['r'], "current".data], [['r'], "1.17.1".data]], [], []⟩
      = some ["1.17.1".data, "current".data]
    ∧ "current".data ∈ ["1.17.1".data, "current".data] := by
  constructor
  · decide
  · decide

/-- C4 amended: the listing excludes `current` only through the
directory-only filter — whenever `current` is not a real directory under
the root (in particular when it is the usual symlink, or absent), it
never appears in the result. -/
theorem c4_list_excludes_current_nondir (e : Executor) (fs : FState)
    (vs : List Version)
    (hcur : (resolve e.installPath ++ ["current".data]) ∉ fs.dirs)
    (hl : list e fs = some vs) :
    "current".data ∉ vs := by
  unfold list at hl
  cases hrd : readDir fs (resolve e.installPath) with
  | none =>
    rw [hrd] at hl
    cases hl
  | some fis =>
    rw [hrd] at hl
    have hvs : vs = (fis.filter (fun fi => fi.isDir)).map (fun fi => fi.name) :=
      (Option.some_inj.mp hl).symm
    unfold readDir at hrd
    by_cases hd : hasDir fs (resolve e.installPath) = true
    · rw [if_pos hd] at hrd
      have hfis : fis = List.insertionSort fiLe
          ((childNames fs (resolve e.installPath)).map
            (fun n => ⟨n, hasDir fs (resolve e.installPath ++ [n])⟩)) :=
        (Option.some_inj.mp hrd).symm
      intro hmem
      rw [hvs] at hmem
      obtain ⟨fi, hfi, hname⟩ := List.mem_map.mp hmem
      have hfi2 := List.mem_filter.mp hfi
      have hfi3 : fi ∈ (childNames fs (resolve e.installPath)).map
          (fun n => ⟨n, hasDir fs (resolve e.installPath ++ [n])⟩) := by
        have hperm := List.perm_insertionSort fiLe
          ((childNames fs (resolve e.installPath)).map
            (fun n => ⟨n, hasDir fs (resolve e.installPath ++ [n])⟩))
        exact hperm.mem_iff.mp (hfis ▸ hfi2.1)
      obtain ⟨n, _, hfieq⟩ := List.mem_map.mp hfi3
      have hnc : n = "current".data := by
        rw [← hname, ← hfieq]
      have hcd : hasDir fs (resolve e.installPath ++ [n]) = true := by
        have := hfi2.2
        rw [← hfieq] at this
        simpa using this
      rw [hnc] at hcd
      exact hcur (of_decide_eq_true hcd)
    · rw [if_neg hd] at hrd
      cases hrd

/-- Witness for the amended C4: with `current` as a symlink the listing
omits it. -/
theorem c4_list_excludes_current_nondir_witness :
    "current".data ∉ (["1.17.1".data] : List Version) :=
  c4_list_excludes_current_nondir ⟨"/r".data, true⟩
    ⟨[[], [['r']], [['r'], "1.17.1".data]], [],
      [([['r'], "current".data], "/r/1.17.1".data)]⟩
    ["1.17.1".data] (by decide) (by decide)

/-- C5: on a buffer that is not a valid gzip stream, `unTarGzip` does not
return an error — the discarded `gzip.NewReader` error leaves a nil
reader whose first use panics (modelled as the `panicked` outcome),
contradicting the claim (and the spec) that decompression failure is
surfaced as a returned error. -/
theorem c5_invalid_gzip_panics (target : GoStr) (r : Option Renamer) (fs : FState) :
    unTarGzip GzBuf.notGzip target r fs = ExtractOut.panicked := rfl

/-- C6: when `root/<version>` does not exist as a directory, `Use`
returns `ErrVersionNotInstalled` and leaves the filesystem — including
any pre-existing `current` link — exactly as it was. -/
theorem c6_use_not_installed (e : Executor) (fs : FState) (v : Version)
    (hos : e.isOsFs = true)
    (hnotdir : hasDir fs (resolve (goJoin2 e.installPath (versionString v))) = false) :
    Use e fs v = ⟨fs, some UseErr.versionNotInstalled⟩ := by
  simp [Use, hos, hnotdir]

/-- Witness for C6 at a root holding only version 1.17.1. -/
theorem c6_use_not_installed_witness :
    Use ⟨"/r".data, true⟩ ⟨[[], [['r']], [['r'], "1.17.1".data]], [], []⟩
        ("9.9.9".data)
      = ⟨⟨[[], [['r']], [['r'], "1.17.1".data]], [], []⟩,
          some UseErr.versionNotInstalled⟩ :=
  c6_use_not_installed ⟨"/r".data, true⟩
    ⟨[[], [['r']], [['r'], "1.17.1".data]], [], []⟩ ("9.9.9".data) rfl (by decide)

/-- C7: with both versions installed, `Use v1` then `Use v2` succeed,
leave `root/current` as a link whose target is `root/<v2>` (distinct from
`root/<v1>`), and a subsequent `current` reports `v2`; the switch removes
the prior link before creating the new one. -/
theorem c7_use_switch (e : Executor) (fs : FState) (rs : List Seg) (v1 v2 : Version)
    (hos : e.isOsFs = true)
    (hrne : e.installPath ≠ [])
    (hsplit : splitSep '/' e.installPath = [] :: rs)
    (hrs : ∀ s ∈ rs, plainSeg s = true)
    (hv1 : plainSeg v1 = true) (hv2 : plainSeg v2 = true)
    (hd1 : rs ++ [v1] ∈ fs.dirs) (hd2 : rs ++ [v2] ∈ fs.dirs)
    (hcd : rs ++ ["current".data] ∉ fs.dirs)
    (hcf : rs ++ ["current".data] ∉ fs.files.map Prod.fst)
    (hparse : ParseVersion v2 = some v2)
    (hne : v1 ≠ v2) :
    (Use e fs v1).err = none
    ∧ (Use e (Use e fs v1).fs v2).err = none
    ∧ readLink (Use e (Use e fs v1).fs v2).fs (rs ++ ["current".data])
        = some (goJoin2 e.installPath v2)
    ∧ goJoin2 e.installPath v2 ≠ goJoin2 e.installPath v1
    ∧ current e (Use e (Use e fs v1).fs v2).fs = Except.ok v2 := by
  have hu1 := Use_success e fs v1 rs hos hrne hsplit hrs hv1 hd1 hcd hcf
  have hrm1 := removePath_current fs (rs ++ ["current".data]) hcd hcf
  have hfsA_dirs : (Use e fs v1).fs.dirs = fs.dirs := by
    rw [hu1]
    exact hrm1.1
  have hfsA_files : (Use e fs v1).fs.files = fs.files := by
    rw [hu1]
    exact hrm1.2.1
  have hd2A : rs ++ [v2] ∈ (Use e fs v1).fs.dirs := by
    rw [hfsA_dirs]
    exact hd2
  have hcdA : rs ++ ["current".data] ∉ (Use e fs v1).fs.dirs := by
    rw [hfsA_dirs]
    exact hcd
  have hcfA : rs ++ ["current".data] ∉ (Use e fs v1).fs.files.map Prod.fst := by
    rw [hfsA_files]
    exact hcf
  have hu2 := Use_success e ((Use e fs v1).fs) v2 rs hos hrne hsplit hrs hv2
    hd2A hcdA hcfA
  have hkc := resolve_goJoin2_seg e.installPath rs ("current".data) hrne hsplit hrs
    (by decide)
  have hb1 := goPathBase_goJoin2 e.installPath rs v1 hrne hsplit hrs hv1
  have hb2 := goPathBase_goJoin2 e.installPath rs v2 hrne hsplit hrs hv2
  have hrl : readLink (Use e (Use e fs v1).fs v2).fs (rs ++ ["current".data])
      = some (goJoin2 e.installPath v2) := by
    rw [hu2]
    unfold readLink
    rw [List.find?_cons_of_pos _ (by simp)]
  refine ⟨?_, ?_, hrl, ?_, ?_⟩
  · rw [hu1]
  · rw [hu2]
  · intro heq
    apply hne
    have := congrArg goPathBase heq
    rw [hb1, hb2] at this
    exact this.symm
  · unfold current
    rw [hos]
    simp only [Bool.true_eq_false, if_false]
    rw [hkc, hrl]
    simp [hb2, hparse]

/-- Witness for C7: switching from 1.16.0 to 1.17.1 under root `/r`. -/
theorem c7_use_switch_witness :
    current ⟨"/r".data, true⟩
        (Use ⟨"/r".data, true⟩
          (Use ⟨"/r".data, true⟩
            ⟨[[], [['r']], [['r'], "1.16.0".data], [['r'], "1.17.1".data]], [], []⟩
            ("1.16.0".data)).fs
          ("1.17.1".data)).fs
      = Except.ok ("1.17.1".data) :=
  (c7_use_switch ⟨"/r".data, true⟩
    ⟨[[], [['r']], [['r'], "1.16.0".data], [['r'], "1.17.1".data]], [], []⟩
    [['r']] ("1.16.0".data) ("1.17.1".data) rfl (by decide) (by decide) (by decide)
    (by decide) (by decide) (by decide) (by decide) (by decide) (by decide)
    (by decide) (by decide)).2.2.2.2

/-- C8: when the download step fails, `Install` returns the download
error with the filesystem untouched — the per-version directory is only
created after a successful download. -/
theorem c8_install_download_failure (e : Executor) (fs : FState) (v : Version)
    (net : HttpOutcome) (decode : List Nat → GzBuf)
    (h : (download net).err = true) :
    Install e fs v net decode = InstallOut.ret fs (some InstallErr.downloadFailed) := by
  simp [Install, h]

/-- Witness for C8 at a transport failure. -/
theorem c8_install_download_failure_witness :
    Install ⟨"/r".data, true⟩ ⟨[[], [['r']]], [], []⟩ ("1.17.1".data)
        HttpOutcome.netError (fun _ => GzBuf.notGzip)
      = InstallOut.ret ⟨[[], [['r']]], [], []⟩ (some InstallErr.downloadFailed) :=
  c8_install_download_failure ⟨"/r".data, true⟩ ⟨[[], [['r']]], [], []⟩
    ("1.17.1".data) HttpOutcome.netError (fun _ => GzBuf.notGzip) rfl

/-- C9: every successful listing is sorted in ascending byte-wise
lexicographic order of entry name, because the underlying directory read
sorts its entries before the directory-only filter is applied. -/
theorem c9_list_sorted (e : Executor) (fs : FState) (vs : List Version)
    (h : list e fs = some vs) :
    vs.Pairwise (fun a b => strLe a b = true) := by
  unfold list at h
  cases hrd : readDir fs (resolve e.installPath) with
  | none =>
    rw [hrd] at h
    cases h
  | some fis =>
    rw [hrd] at h
    have hvs : vs = (fis.filter (fun fi => fi.isDir)).map (fun fi => fi.name) :=
      (Option.some_inj.mp h).symm
    unfold readDir at hrd
    by_cases hd : hasDir fs (resolve e.installPath) = true
    · rw [if_pos hd] at hrd
      have hfis : fis = List.insertionSort fiLe
          ((childNames fs (resolve e.installPath)).map
            (fun n => ⟨n, hasDir fs (resolve e.installPath ++ [n])⟩)) :=
        (Option.some_inj.mp hrd).symm
      have hsorted : fis.Pairwise fiLe := by
        rw [hfis]
        exact List.sorted_insertionSort fiLe _
      have hfsorted : (fis.filter (fun fi => fi.isDir)).Pairwise fiLe :=
        hsorted.sublist (List.filter_sublist fis)
      rw [hvs, List.pairwise_map]
      exact hfsorted
    · rw [if_neg hd] at hrd
      cases hrd

/-- Witness for C9 at a root with two installed versions (listed names in
ascending order). -/
theorem c9_list_sorted_witness :
    (["1.16.0".data, "1.17.1".data] : List Version).Pairwise
      (fun a b => strLe a b = true) :=
  c9_list_sorted ⟨"/r".data, true⟩
    ⟨[[], [['r']], [['r'], "1.17.1".data], [['r'], "1.16.0".data]], [], []⟩
    ["1.16.0".data, "1.17.1".data] (by decide)

/-- C10 counterexample: `ParseVersion` does not preserve the input — the
canonical form strips the leading `v`, so `v1.17.1` and `1.17.1` parse to
the same `Version` (and hence the same install directory), refuting both
the exact round-trip and the two-distinct-directories consequence. -/
theorem c10_counterexample :
    ParseVersion ("v1.17.1".data) = some ("1.17.1".data)
    ∧ ParseVersion ("1.17.1".data) = some ("1.17.1".data)
    ∧ ParseVersion ("v1.17.1".data) = ParseVersion ("1.17.1".data)
    ∧ ("1.17.1".data : GoStr) ≠ "v1.17.1".data := by
  refine ⟨by decide, by decide, by decide, by decide⟩

/-- C10 amended: the canonical form is the normalized semver rendering —
for any parseable string not already carrying a leading `v`, prefixing a
`v` parses to the same `Version` (so `v1.17.1` and `1.17.1` name the same
install directory), and no canonical `Version` retains a `v` prefix. -/
theorem c10_canonicalization (s : GoStr) (v : Version)
    (hhead : s.head? ≠ some 'v')
    (h : ParseVersion s = some v) :
    ParseVersion ('v' :: s) = some v ∧ versionNumber v = v := by
  constructor
  · have hstrip2 : stripV s = s := by
      cases s with
      | nil => rfl
      | cons c cs =>
        have hc : c ≠ 'v' := by
          intro hh
          exact hhead (by rw [hh]; rfl)
        unfold stripV
        split
        · rename_i r heq
          exact absurd (List.cons.inj heq).1 hc
        · rfl
    have hstrip1 : stripV ('v' :: s) = s := rfl
    unfold ParseVersion newSemVer at h ⊢
    rw [hstrip1, ← hstrip2]
    exact h
  · exact ParseVersion_no_v h

/-- Witness for the amended C10 at `1.17.1`. -/
theorem c10_canonicalization_witness :
    ParseVersion ('v' :: "1.17.1".data) = some ("1.17.1".data)
    ∧ versionNumber ("1.17.1".data) = "1.17.1".data :=
  c10_canonicalization ("1.17.1".data) ("1.17.1".data) (by decide) (by decide)

end DfctlGo
